import Mathlib

/-!
Shallow embedding of the `html_parser` repository (src/lib.rs, src/tokenizer.rs).

Strings are modelled as `List Char` (Rust `char` and Lean `Char` are both
Unicode scalar values).  The tokenizer's `CharIndices` iterator is represented
by the index `pos` of the next unread character of `source`.  Rust string
slicing works on byte indices and panics when an index is not a UTF-8
character boundary; every panic of the Rust code is modelled as
`Except.error`.  In `consume_characters` the Rust code slices
`source[start_index..last_index + 1]` where `start_index` is the byte index of
the first consumed character (always a boundary) and `last_index` the byte
index of the last consumed character, so `last_index + 1` is a boundary iff
the last consumed character is one byte long; the model checks exactly that.
-/

namespace HtmlParser

/-- Rust `char::is_whitespace`: the Unicode White_Space property. -/
def rustIsWhitespace (c : Char) : Bool :=
  let n := c.toNat
  n == 0x09 || n == 0x0A || n == 0x0B || n == 0x0C || n == 0x0D || n == 0x20 ||
  n == 0x85 || n == 0xA0 || n == 0x1680 ||
  (decide (0x2000 ≤ n) && decide (n ≤ 0x200A)) ||
  n == 0x2028 || n == 0x2029 || n == 0x202F || n == 0x205F || n == 0x3000

/-- Rust `str::trim`: strip leading and trailing whitespace (done once by
`Parser::new`). -/
def trim (l : List Char) : List Char :=
  ((l.dropWhile rustIsWhitespace).reverse.dropWhile rustIsWhitespace).reverse

/-- `Position { line, column }` from tokenizer.rs. -/
structure Position where
  line : Nat
  column : Nat
deriving DecidableEq, Repr

/-- `Range { start, end }` from tokenizer.rs (`end` is a Lean keyword, so the
second field is called `stop`). -/
structure Range where
  start : Position
  stop : Position
deriving DecidableEq, Repr

/-- `Span { range, source }` from tokenizer.rs; `source` is the borrowed
substring, modelled by its character list. -/
structure Span where
  range : Range
  source : List Char
deriving DecidableEq, Repr

/-- `Span::point`: a zero-length span at a position, with empty text. -/
def Span.point (pos : Position) : Span :=
  { range := { start := pos, stop := pos }, source := [] }

/-- `TokenKind` from tokenizer.rs. -/
inductive TokenKind where
  | TagName (name : List Char)
  | OpeningTagEnd
  | AttributeName (name : List Char)
  | AttributeValue (value : List Char)
  | Text (text : List Char)
  | TagEnd (name : List Char)
deriving DecidableEq, Repr

/-- `Token { span, kind }` from tokenizer.rs. -/
structure Token where
  span : Span
  kind : TokenKind
deriving DecidableEq, Repr

/-- `ConsumeMode` from tokenizer.rs. -/
inductive ConsumeMode where
  | AttributeName
  | AttributeValue
  | OutsideTag
deriving DecidableEq, Repr

/-- `Tokenizer` state: the borrowed source, the cursor (`it` in the Rust code,
here the index of the next unread character), the mode and the position. -/
structure Tokenizer where
  source : List Char
  pos : Nat
  consume_mode : ConsumeMode
  line : Nat
  column : Nat
deriving DecidableEq, Repr

/-- `Tokenizer::new`. -/
def Tokenizer.new (source : List Char) : Tokenizer :=
  { source := source, pos := 0, consume_mode := ConsumeMode.OutsideTag,
    line := 0, column := 0 }

/-- The unread suffix of the source (what the `CharIndices` iterator would
still yield). -/
def Tokenizer.rest (st : Tokenizer) : List Char :=
  st.source.drop st.pos

/-- `Tokenizer::current_position`. -/
def current_position (st : Tokenizer) : Position :=
  { line := st.line, column := st.column }

/-- One character is consumed: `self.it.next()` plus the shared line/column
update (`if c == 'newline' { line += 1; column = 0 } else { column += 1 }`)
performed identically in `consume_character`, `consume_characters` and
`move_cursor`. -/
def advanceChar (st : Tokenizer) (c : Char) : Tokenizer :=
  if c = '\n' then
    { st with pos := st.pos + 1, line := st.line + 1, column := 0 }
  else
    { st with pos := st.pos + 1, column := st.column + 1 }

/-- `Tokenizer::look_ahead1` (peek without consuming). -/
def look_ahead1 (st : Tokenizer) : Option Char :=
  st.rest.head?

/-- `Tokenizer::move_cursor` with `by = 1` (the only call in the source). -/
def move_cursor1 (st : Tokenizer) : Tokenizer :=
  match st.rest.head? with
  | some c => advanceChar st c
  | none => st

/-- `Tokenizer::consume_character`.  The Rust code slices
`source[i..i + 1]`, which panics unless the matched character is one byte;
every call site passes an ASCII character, so the error branch is dead, but it
is modelled for faithfulness. -/
def consume_character (st : Tokenizer) (c : Char) : Except String (Option (Span × Tokenizer)) :=
  match st.rest.head? with
  | none => .ok none
  | some nextC =>
    if nextC = c then
      if c.utf8Size = 1 then
        let p := current_position st
        .ok (some ({ range := { start := p, stop := p }, source := [c] }, advanceChar st c))
      else .error "byte index is not a char boundary"
    else .ok none

/-- Whether the byte index just after the last character of the list is a
UTF-8 character boundary, i.e. whether the last character is one byte. -/
def lastCharIsOneByte : List Char → Bool
  | [] => true
  | [c] => c.utf8Size == 1
  | _ :: c :: cs => lastCharIsOneByte (c :: cs)

/-- `Tokenizer::consume_characters`: consume the maximal run satisfying the
condition; the final slice `source[start_index..last_index + 1]` panics iff
the run is nonempty and its last character is not one byte. -/
def consume_characters (st : Tokenizer) (cond : Char → Bool) :
    Except String (Option (Span × Tokenizer)) :=
  match st.rest.takeWhile cond with
  | [] => .ok none
  | c :: cs =>
    if lastCharIsOneByte (c :: cs) then
      let st' := (c :: cs).foldl advanceChar st
      .ok (some ({ range := { start := current_position st, stop := current_position st' },
                   source := c :: cs }, st'))
    else .error "byte index is not a char boundary"

/-- `Tokenizer::consume_whitespace` (result discarded, state kept). -/
def consume_whitespace (st : Tokenizer) : Except String Tokenizer :=
  match consume_characters st rustIsWhitespace with
  | .error e => .error e
  | .ok none => .ok st
  | .ok (some (_, st')) => .ok st'

/-- Identifier characters: everything except `=`, `/`, `>` and whitespace
(the closure in `Tokenizer::consume_identifier`). -/
def identChar (c : Char) : Bool :=
  c != '=' && c != '/' && c != '>' && !(rustIsWhitespace c)

/-- `Tokenizer::consume_identifier`: skip whitespace, then read the maximal
run of identifier characters.  The Rust version returns `Option<Span>` but has
already mutated `self` past the whitespace, so the model returns the advanced
state together with the optional span. -/
def consume_identifier (st : Tokenizer) : Except String (Option Span × Tokenizer) :=
  match consume_whitespace st with
  | .error e => .error e
  | .ok st₁ =>
    match consume_characters st₁ identChar with
    | .error e => .error e
    | .ok none => .ok (none, st₁)
    | .ok (some (sp, st₂)) => .ok (some sp, st₂)

/-- `Tokenizer::consume_opening_tag_end`. -/
def consume_opening_tag_end (st : Tokenizer) : Except String (Option (Token × Tokenizer)) :=
  match consume_character st '>' with
  | .error e => .error e
  | .ok none => .ok none
  | .ok (some (sp, st')) => .ok (some ({ span := sp, kind := TokenKind.OpeningTagEnd }, st'))

/-- `Tokenizer::consume_text_node`. -/
def consume_text_node (st : Tokenizer) : Except String (Option (Token × Tokenizer)) :=
  match consume_characters st (fun c => c != '<') with
  | .error e => .error e
  | .ok none => .ok none
  | .ok (some (sp, st')) =>
    .ok (some ({ span := sp, kind := TokenKind.Text sp.source }, st'))

/-- `Tokenizer::consume_attribute_name`. -/
def consume_attribute_name (st : Tokenizer) : Except String (Option Token × Tokenizer) :=
  match consume_identifier st with
  | .error e => .error e
  | .ok (none, st') => .ok (none, st')
  | .ok (some sp, st') =>
    .ok (some { span := sp, kind := TokenKind.AttributeName sp.source }, st')

/-- `Tokenizer::consume_tag`: lookahead for `<`, then consume it, optionally
a `/` (closing marker), an identifier (point span when absent) and, for
closing tags, a directly following `>`. -/
def consume_tag (st : Tokenizer) : Except String (Option (Token × Tokenizer)) :=
  match st.rest.head? with
  | none => .ok none
  | some c =>
    if c = '<' then
      let st₁ := move_cursor1 st
      match consume_character st₁ '/' with
      | .error e => .error e
      | .ok slash =>
        let is_closing := slash.isSome
        let st₂ := match slash with | some (_, s) => s | none => st₁
        match consume_identifier st₂ with
        | .error e => .error e
        | .ok (idOpt, st₃) =>
          let identifier := match idOpt with
            | some sp => sp
            | none => Span.point (current_position st₃)
          if is_closing then
            match consume_character st₃ '>' with
            | .error e => .error e
            | .ok r =>
              let st₄ := match r with | some (_, s) => s | none => st₃
              .ok (some ({ span := identifier,
                           kind := TokenKind.TagEnd identifier.source }, st₄))
          else
            .ok (some ({ span := identifier,
                         kind := TokenKind.TagName identifier.source }, st₃))
    else .ok none

/-- The quoted branch of `Tokenizer::consume_attribute_value`: consume up to
the matching quote `q`, then the closing quote when present.  (Rust recovers
`q` from the one-character span of the consumed opening quote; the
`expect("either double or single quote")` there cannot fire since that span is
never empty.) -/
def consume_quoted_value (q : Char) (st : Tokenizer) : Except String (Token × Tokenizer) :=
  match consume_characters st (fun c => c != q) with
  | .error e => .error e
  | .ok (some (sp, st₁)) =>
    match consume_character st₁ q with
    | .error e => .error e
    | .ok r =>
      let st₂ := match r with | some (_, s) => s | none => st₁
      .ok ({ span := sp, kind := TokenKind.AttributeValue sp.source }, st₂)
  | .ok none =>
    match consume_character st q with
    | .error e => .error e
    | .ok r =>
      let st₁ := match r with | some (_, s) => s | none => st
      let span := Span.point (current_position st₁)
      .ok ({ span := span, kind := TokenKind.AttributeValue span.source }, st₁)

/-- Characters of an unquoted attribute value: up to the next whitespace, `>`
or `/` (the closure in `Tokenizer::consume_attribute_value`). -/
def unquotedValueChar (c : Char) : Bool :=
  !(rustIsWhitespace c) && c != '>' && c != '/'

/-- `Tokenizer::consume_attribute_value`. -/
def consume_attribute_value (st : Tokenizer) : Except String (Token × Tokenizer) :=
  match consume_character st '=' with
  | .error e => .error e
  | .ok none =>
    let span := Span.point (current_position st)
    .ok ({ span := span, kind := TokenKind.AttributeValue span.source }, st)
  | .ok (some (_, st₁)) =>
    match consume_character st₁ '"' with
    | .error e => .error e
    | .ok (some (_, st₂)) => consume_quoted_value '"' st₂
    | .ok none =>
      match consume_character st₁ '\'' with
      | .error e => .error e
      | .ok (some (_, st₂)) => consume_quoted_value '\'' st₂
      | .ok none =>
        match consume_characters st₁ unquotedValueChar with
        | .error e => .error e
        | .ok (some (sp, st₂)) =>
          .ok ({ span := sp, kind := TokenKind.AttributeValue sp.source }, st₂)
        | .ok none =>
          let span := Span.point (current_position st₁)
          .ok ({ span := span, kind := TokenKind.AttributeValue span.source }, st₁)

/-- Discriminator used by `Tokenizer::next` (`matches!(tag.kind,
TokenKind::TagEnd { .. })`). -/
def isTagEnd : TokenKind → Bool
  | TokenKind.TagEnd _ => true
  | _ => false

/-- `Tokenizer::next`.  The Rust method returns `Option<Token>` while mutating
`self`; the model returns the option together with the new state (the state
changes on `None` results too, e.g. whitespace and a stray `/` consumed in
`AttributeName` mode). -/
def Tokenizer.next (st : Tokenizer) : Except String (Option Token × Tokenizer) :=
  match st.consume_mode with
  | ConsumeMode.OutsideTag =>
    match consume_tag st with
    | .error e => .error e
    | .ok (some (tag, st₁)) =>
      let st₂ := if isTagEnd tag.kind then st₁
                 else { st₁ with consume_mode := ConsumeMode.AttributeName }
      .ok (some tag, st₂)
    | .ok none =>
      match consume_text_node st with
      | .error e => .error e
      | .ok (some (t, st₁)) => .ok (some t, st₁)
      | .ok none => .ok (none, st)
  | ConsumeMode.AttributeName =>
    match consume_whitespace st with
    | .error e => .error e
    | .ok st₁ =>
      match consume_character st₁ '/' with
      | .error e => .error e
      | .ok r =>
        let st₂ := match r with | some (_, s) => s | none => st₁
        match consume_opening_tag_end st₂ with
        | .error e => .error e
        | .ok (some (t, st₃)) =>
          .ok (some t, { st₃ with consume_mode := ConsumeMode.OutsideTag })
        | .ok none =>
          match consume_attribute_name st₂ with
          | .error e => .error e
          | .ok (some t, st₃) =>
            .ok (some t, { st₃ with consume_mode := ConsumeMode.AttributeValue })
          | .ok (none, st₃) => .ok (none, st₃)
  | ConsumeMode.AttributeValue =>
    let st₀ := { st with consume_mode := ConsumeMode.AttributeName }
    match consume_attribute_value st₀ with
    | .error e => .error e
    | .ok (t, st₁) => .ok (some t, st₁)

/-- Termination measure for the token stream: every successful `next` call
that produces a token strictly decreases it (proved below).  Two units per
unread character, plus one unit when the mode is `AttributeValue` (whose
emission may consume no character but switches the mode back). -/
def tokenFuel (st : Tokenizer) : Nat :=
  2 * (st.source.length - st.pos) +
    (match st.consume_mode with
     | ConsumeMode.AttributeValue => 1
     | _ => 0)

/-- Pull tokens from the scanner until it yields none, collecting them in
emission order.  `fuel` is an artifact of the embedding (Lean functions are
total); `none` means the fuel ran out, which is proved unreachable for
`fuel > tokenFuel st`. -/
def tokenize : Nat → Tokenizer → Option (Except String (List Token × Tokenizer))
  | 0, _ => none
  | fuel + 1, st =>
    match Tokenizer.next st with
    | .error e => some (.error e)
    | .ok (none, st') => some (.ok ([], st'))
    | .ok (some t, st') =>
      match tokenize fuel st' with
      | none => none
      | some (.error e) => some (.error e)
      | some (.ok (ts, st'')) => some (.ok (t :: ts, st''))

/-- Run the scanner on an (already-trimmed) buffer until exhaustion. -/
def tokenizeFrom (source : List Char) : Option (Except String (List Token × Tokenizer)) :=
  tokenize (tokenFuel (Tokenizer.new source) + 1) (Tokenizer.new source)

/-- `Attribute { name, value }` from lib.rs. -/
structure Attribute where
  name : Token
  value : Token
deriving DecidableEq, Repr

mutual
/-- `Node { kind }` from lib.rs. -/
inductive Node where
  | mk (kind : NodeKind)

/-- `NodeKind` from lib.rs. -/
inductive NodeKind where
  | Text (token : Token)
  | Element (element : Element)

/-- `Element { attributes, children, tag_name }` from lib.rs. -/
inductive Element where
  | mk (attributes : List Attribute) (children : List Node) (tag_name : Token)
end

/-- Projection for `Element.attributes`. -/
def Element.attributes : Element → List Attribute
  | Element.mk attrs _ _ => attrs

/-- Projection for `Element.children`. -/
def Element.children : Element → List Node
  | Element.mk _ children _ => children

/-- Projection for `Element.tag_name`. -/
def Element.tag_name : Element → Token
  | Element.mk _ _ t => t

/-- `Parser::parse_attributes`: pair each `AttributeName` token with the very
next token, stop on `OpeningTagEnd` or stream exhaustion.  The
`expect("Attribute value should always exist")` is modelled as an error (it is
proved unreachable: in `AttributeValue` mode `next` never yields none). -/
def parse_attributes : Nat → Tokenizer → Option (Except String (List Attribute × Tokenizer))
  | 0, _ => none
  | fuel + 1, st =>
    match Tokenizer.next st with
    | .error e => some (.error e)
    | .ok (none, st₁) => some (.ok ([], st₁))
    | .ok (some token, st₁) =>
      match token.kind with
      | TokenKind.AttributeName _ =>
        match Tokenizer.next st₁ with
        | .error e => some (.error e)
        | .ok (none, _) => some (.error "Attribute value should always exist")
        | .ok (some value_token, st₂) =>
          match parse_attributes fuel st₂ with
          | none => none
          | some (.error e) => some (.error e)
          | some (.ok (attrs, st₃)) =>
            some (.ok ({ name := token, value := value_token } :: attrs, st₃))
      | TokenKind.OpeningTagEnd => some (.ok ([], st₁))
      | _ => parse_attributes fuel st₁

/-- `Parser::parse`: the recursive tree builder.  A `TagName` token opens an
element whose attributes come from `parse_attributes` and whose children from
a recursive call; a `Text` token becomes a text node; every other token is
discarded.  The loop over the remaining tokens is the tail recursive call. -/
def parse : Nat → Tokenizer → Option (Except String (List Node × Tokenizer))
  | 0, _ => none
  | fuel + 1, st =>
    match Tokenizer.next st with
    | .error e => some (.error e)
    | .ok (none, st₁) => some (.ok ([], st₁))
    | .ok (some token, st₁) =>
      match token.kind with
      | TokenKind.TagName _ =>
        match parse_attributes fuel st₁ with
        | none => none
        | some (.error e) => some (.error e)
        | some (.ok (attributes, st₂)) =>
          match parse fuel st₂ with
          | none => none
          | some (.error e) => some (.error e)
          | some (.ok (children, st₃)) =>
            match parse fuel st₃ with
            | none => none
            | some (.error e) => some (.error e)
            | some (.ok (nodes, st₄)) =>
              some (.ok (Node.mk (NodeKind.Element
                (Element.mk attributes children token)) :: nodes, st₄))
      | TokenKind.Text _ =>
        match parse fuel st₁ with
        | none => none
        | some (.error e) => some (.error e)
        | some (.ok (nodes, st₂)) =>
          some (.ok (Node.mk (NodeKind.Text token) :: nodes, st₂))
      | _ => parse fuel st₁

/-- `Parser::new`: trim the buffer once and build the tokenizer. -/
def Parser.new (source : List Char) : Tokenizer :=
  Tokenizer.new (trim source)

/-- `Parser::new(source)` followed by `parser.parse()`: the tree-building
entry point, with enough fuel (proved sufficient below). -/
def parseInput (source : List Char) : Except String (List Node) :=
  let st := Parser.new source
  match parse (tokenFuel st + 1) st with
  | some (.ok (nodes, _)) => .ok nodes
  | some (.error e) => .error e
  | none => .error "fuel exhausted"

/-- Total UTF-8 byte length of a character list (Rust `str::len`). -/
def utf8Len (l : List Char) : Nat := (l.map Char.utf8Size).sum

/-- Drop the first `n` bytes; `none` when `n` overruns the string or is not a
character boundary. -/
def byteDrop : List Char → Nat → Option (List Char)
  | l, 0 => some l
  | [], _ + 1 => none
  | c :: cs, n + 1 =>
    if c.utf8Size ≤ n + 1 then byteDrop cs (n + 1 - c.utf8Size) else none

/-- Take the first `n` bytes; `none` when `n` overruns the string or is not a
character boundary. -/
def byteTake : List Char → Nat → Option (List Char)
  | _, 0 => some []
  | [], _ + 1 => none
  | c :: cs, n + 1 =>
    if c.utf8Size ≤ n + 1 then (byteTake cs (n + 1 - c.utf8Size)).map (c :: ·) else none

/-- Rust string slicing `&s[i..j]` with byte indices: panics (modelled as an
error) when `i > j` or either index misses a character boundary or overruns
the string. -/
def byteSlice (l : List Char) (i j : Nat) : Except String (List Char) :=
  if i ≤ j then
    match byteDrop l i with
    | none => .error "byte index is not a char boundary"
    | some l' =>
      match byteTake l' (j - i) with
      | none => .error "byte index is not a char boundary"
      | some r => .ok r
  else .error "slice index starts after it ends"

/-- `Attribute::value_text`: when the raw value starts with `"` or `'`, return
`&source[1..source.len() - 1]` (byte indices!), otherwise the raw value. -/
def value_text (a : Attribute) : Except String (List Char) :=
  let source := a.value.span.source
  if source.head? == some '"' || source.head? == some '\'' then
    byteSlice source 1 (utf8Len source - 1)
  else .ok source

/-- `Attribute::name_text`. -/
def name_text (a : Attribute) : List Char :=
  a.name.span.source

/-- The first token the parser's tokenizer emits for the given raw input
(after the trim done by `Parser::new`). -/
def firstToken (source : List Char) : Option Token :=
  match Tokenizer.next (Parser.new source) with
  | .ok (some t, _) => some t
  | _ => none

/-- The first attribute of the first root node of the parsed forest, when the
parse succeeds and that root is an element. -/
def parsedFirstAttr (source : List Char) : Option Attribute :=
  match parseInput source with
  | .ok (Node.mk (NodeKind.Element e) :: _) => e.attributes.head?
  | _ => none

/-! ### Proof infrastructure: consumption chunks -/

/-- Characters the scanner consumes without making them part of any emitted
token's span: the tag delimiters, the attribute equals sign, quotes and
skipped whitespace. -/
def isDiscard (c : Char) : Bool :=
  c == '<' || c == '/' || c == '>' || c == '=' || c == '"' || c == '\'' ||
    rustIsWhitespace c

/-- All characters of the list are discardable. -/
def allDiscard (l : List Char) : Prop := ∀ c ∈ l, isDiscard c = true

theorem allDiscard_nil : allDiscard [] := by
  intro c hc
  cases hc

theorem allDiscard_append {a b : List Char} (ha : allDiscard a) (hb : allDiscard b) :
    allDiscard (a ++ b) := by
  intro c hc
  rcases List.mem_append.mp hc with h | h
  · exact ha c h
  · exact hb c h

theorem allDiscard_ws {l : List Char} (h : ∀ c ∈ l, rustIsWhitespace c = true) :
    allDiscard l := by
  intro c hc
  simp [isDiscard, h c hc]

/-- `st'` is `st` after consuming exactly the characters of `chunk` (a prefix
of the unread input), with the standard per-character position update. -/
structure Steps (st st' : Tokenizer) (chunk : List Char) : Prop where
  source_eq : st'.source = st.source
  pos_eq : st'.pos = st.pos + chunk.length
  chunk_eq : chunk = (st.source.drop st.pos).take chunk.length
  line_eq : st'.line = st.line + chunk.count '\n'
  mode_eq : st'.consume_mode = st.consume_mode

theorem Steps.nil (st : Tokenizer) : Steps st st [] := by
  constructor <;> simp

theorem Steps.trans {st st' st'' : Tokenizer} {c₁ c₂ : List Char}
    (h₁ : Steps st st' c₁) (h₂ : Steps st' st'' c₂) : Steps st st'' (c₁ ++ c₂) := by
  constructor
  · rw [h₂.source_eq, h₁.source_eq]
  · rw [h₂.pos_eq, h₁.pos_eq]; simp [Nat.add_assoc]
  · have hc₂ : c₂ = (st.source.drop (st.pos + c₁.length)).take c₂.length := by
      have h := h₂.chunk_eq
      rw [h₁.source_eq, h₁.pos_eq] at h
      exact h
    have hdd : (st.source.drop st.pos).drop c₁.length = st.source.drop (st.pos + c₁.length) := by
      rw [List.drop_drop, Nat.add_comm]
    calc c₁ ++ c₂
        = (st.source.drop st.pos).take c₁.length ++
            ((st.source.drop st.pos).drop c₁.length).take c₂.length := by
          rw [← h₁.chunk_eq, hdd, ← hc₂]
      _ = (st.source.drop st.pos).take (c₁.length + c₂.length) := by
          rw [List.take_add]
      _ = (st.source.drop st.pos).take (c₁ ++ c₂).length := by
          rw [List.length_append]
  · rw [h₂.line_eq, h₁.line_eq, List.count_append]; omega
  · rw [h₂.mode_eq, h₁.mode_eq]

theorem advanceChar_source (st : Tokenizer) (c : Char) :
    (advanceChar st c).source = st.source := by
  unfold advanceChar; split <;> rfl

theorem advanceChar_pos (st : Tokenizer) (c : Char) :
    (advanceChar st c).pos = st.pos + 1 := by
  unfold advanceChar; split <;> rfl

theorem advanceChar_mode (st : Tokenizer) (c : Char) :
    (advanceChar st c).consume_mode = st.consume_mode := by
  unfold advanceChar; split <;> rfl

theorem advanceChar_steps {st : Tokenizer} {c : Char} {r : List Char}
    (h : st.source.drop st.pos = c :: r) : Steps st (advanceChar st c) [c] := by
  constructor
  · exact advanceChar_source st c
  · exact advanceChar_pos st c
  · rw [h]; rfl
  · unfold advanceChar
    by_cases hc : c = '\n'
    · subst hc; simp
    · simp [hc, List.count_cons, Ne.symm hc]
  · exact advanceChar_mode st c

theorem foldl_advanceChar_steps :
    ∀ (l : List Char) (st : Tokenizer),
      l = (st.source.drop st.pos).take l.length →
      Steps st (l.foldl advanceChar st) l := by
  intro l
  induction l with
  | nil => intro st _; exact Steps.nil st
  | cons c cs ih =>
    intro st h
    cases hrest : st.source.drop st.pos with
    | nil => rw [hrest] at h; simp at h
    | cons a r =>
      rw [hrest] at h
      simp only [List.length_cons, List.take_succ_cons] at h
      obtain ⟨hca, hcs⟩ := List.cons.inj h
      subst hca
      have step₁ : Steps st (advanceChar st c) [c] := advanceChar_steps hrest
      have hrest₁ : (advanceChar st c).source.drop (advanceChar st c).pos = r := by
        rw [step₁.source_eq, step₁.pos_eq]
        simp only [List.length_cons, List.length_nil]
        rw [← List.drop_drop, hrest]
        rfl
      have ih' : Steps (advanceChar st c) (cs.foldl advanceChar (advanceChar st c)) cs := by
        apply ih
        rw [hrest₁]
        exact hcs
      have := step₁.trans ih'
      simpa using this

/-- `takeWhile` is an initial segment. -/
theorem takeWhile_eq_take (p : Char → Bool) :
    ∀ (l : List Char), l.takeWhile p = l.take (l.takeWhile p).length := by
  intro l
  induction l with
  | nil => rfl
  | cons a l ih =>
    by_cases hp : p a
    · have h1 : (a :: l).takeWhile p = a :: l.takeWhile p := by
        rw [List.takeWhile_cons, if_pos hp]
      rw [h1, List.length_cons, List.take_succ_cons]
      exact congrArg (List.cons a) ih
    · simp [List.takeWhile_cons, hp]

theorem mem_takeWhile_cond (p : Char → Bool) :
    ∀ (l : List Char), ∀ c ∈ l.takeWhile p, p c = true := by
  intro l
  induction l with
  | nil => intro c hc; cases hc
  | cons a l ih =>
    intro c hc
    by_cases hp : p a
    · rw [List.takeWhile_cons, if_pos hp] at hc
      rcases List.mem_cons.mp hc with rfl | h
      · exact hp
      · exact ih c h
    · rw [List.takeWhile_cons, if_neg hp] at hc
      cases hc

/-! ### Specifications of the consumption helpers -/

theorem consume_characters_none {st : Tokenizer} {cond : Char → Bool}
    (h : consume_characters st cond = .ok none) :
    (st.source.drop st.pos).takeWhile cond = [] := by
  unfold consume_characters at h
  rw [Tokenizer.rest] at h
  split at h
  · assumption
  · split at h
    · simp at h
    · simp at h

theorem consume_characters_some {st : Tokenizer} {cond : Char → Bool} {sp : Span}
    {st' : Tokenizer}
    (h : consume_characters st cond = .ok (some (sp, st'))) :
    Steps st st' sp.source ∧ sp.source = (st.source.drop st.pos).takeWhile cond ∧
      sp.source ≠ [] ∧ sp.range.start = current_position st ∧
      (∀ c ∈ sp.source, cond c = true) := by
  unfold consume_characters at h
  rw [Tokenizer.rest] at h
  split at h
  · simp at h
  · rename_i c cs htw
    split at h
    · injection h with h1
      injection h1 with h2
      injection h2 with hsp hst
      subst hsp
      subst hst
      have hsteps : Steps st ((c :: cs).foldl advanceChar st) (c :: cs) := by
        apply foldl_advanceChar_steps
        rw [← htw]
        exact takeWhile_eq_take cond _
      refine ⟨hsteps, htw.symm, by simp, rfl, ?_⟩
      intro x hx
      rw [← htw] at hx
      exact mem_takeWhile_cond cond _ x hx
    · simp at h

theorem consume_character_some {st : Tokenizer} {c : Char} {sp : Span} {st' : Tokenizer}
    (h : consume_character st c = .ok (some (sp, st'))) :
    Steps st st' [c] ∧ sp.source = [c] ∧ sp.range.start = current_position st ∧
      sp.range.stop = current_position st := by
  unfold consume_character at h
  rw [Tokenizer.rest] at h
  split at h
  · simp at h
  · rename_i nextC hd
    split at h
    · rename_i hac
      split at h
      · injection h with h1
        injection h1 with h2
        injection h2 with hsp hst
        subst hsp
        subst hst
        subst hac
        have hd' : st.source.drop st.pos = nextC :: (st.source.drop st.pos).tail := by
          cases he : st.source.drop st.pos with
          | nil => rw [he] at hd; cases hd
          | cons a r =>
            rw [he] at hd
            injection hd with hdd
            rw [hdd]
            rfl
        exact ⟨advanceChar_steps hd', rfl, rfl, rfl⟩
      · simp at h
    · simp at h

theorem consume_whitespace_spec {st st' : Tokenizer}
    (h : consume_whitespace st = .ok st') :
    ∃ w, Steps st st' w ∧ (∀ c ∈ w, rustIsWhitespace c = true) := by
  unfold consume_whitespace at h
  cases hcc : consume_characters st rustIsWhitespace with
  | error e => rw [hcc] at h; cases h
  | ok r =>
    cases r with
    | none =>
      rw [hcc] at h
      cases h
      exact ⟨[], Steps.nil st, by intro c hc; cases hc⟩
    | some p =>
      obtain ⟨sp, st₁⟩ := p
      rw [hcc] at h
      cases h
      obtain ⟨hsteps, _, _, _, hcond⟩ := consume_characters_some hcc
      exact ⟨sp.source, hsteps, hcond⟩

theorem consume_identifier_spec {st : Tokenizer} {o : Option Span} {st' : Tokenizer}
    (h : consume_identifier st = .ok (o, st')) :
    ∃ w, (∀ c ∈ w, rustIsWhitespace c = true) ∧
      (match o with
       | none => Steps st st' w
       | some sp => Steps st st' (w ++ sp.source) ∧ sp.source ≠ [] ∧
           (∀ c ∈ sp.source, identChar c = true) ∧
           sp.range.start.line = st.line + w.count '\n') := by
  unfold consume_identifier at h
  split at h
  · exact Except.noConfusion h
  · rename_i st₁ hws
    obtain ⟨w, hwsteps, hwchars⟩ := consume_whitespace_spec hws
    split at h
    · exact Except.noConfusion h
    · injection h with h1
      injection h1 with h2 h3
      subst h2
      subst h3
      exact ⟨w, hwchars, hwsteps⟩
    · rename_i sp st₂ hcc
      injection h with h1
      injection h1 with h2 h3
      subst h2
      subst h3
      obtain ⟨hsteps, _, hne, hstart, hcond⟩ := consume_characters_some hcc
      refine ⟨w, hwchars, hwsteps.trans hsteps, hne, hcond, ?_⟩
      rw [hstart]
      show st₁.line = st.line + w.count '\n'
      exact hwsteps.line_eq

theorem isDiscard_of_ws {c : Char} (h : rustIsWhitespace c = true) : isDiscard c = true := by
  simp [isDiscard, h]

theorem allDiscard_cons {c : Char} {l : List Char} (hc : isDiscard c = true)
    (hl : allDiscard l) : allDiscard (c :: l) := by
  intro x hx
  rcases List.mem_cons.mp hx with rfl | h
  · exact hc
  · exact hl x h

theorem allDiscard_of_ws {l : List Char} (h : ∀ c ∈ l, rustIsWhitespace c = true) :
    allDiscard l := by
  intro c hc
  exact isDiscard_of_ws (h c hc)

theorem move_cursor1_steps {st : Tokenizer} {c : Char}
    (h : st.rest.head? = some c) : Steps st (move_cursor1 st) [c] := by
  have hd : ∃ r, st.source.drop st.pos = c :: r := by
    have h' := h
    rw [Tokenizer.rest] at h'
    cases he : st.source.drop st.pos with
    | nil => rw [he] at h'; cases h'
    | cons a r =>
      rw [he] at h'
      injection h' with h''
      exact ⟨r, by rw [h'']⟩
  obtain ⟨r, hd⟩ := hd
  unfold move_cursor1
  rw [h]
  exact advanceChar_steps hd

theorem count_cons_ne {c : Char} {l : List Char} (h : ¬ c = '\n') :
    (c :: l).count '\n' = l.count '\n' := by
  simp [List.count_cons, h, Ne.symm h]

theorem consume_tag_spec {st : Tokenizer} {tok : Token} {st' : Tokenizer}
    (h : consume_tag st = .ok (some (tok, st'))) :
    ∃ a b, Steps st st' (a ++ tok.span.source ++ b) ∧ allDiscard a ∧ allDiscard b ∧
      a ≠ [] ∧ tok.span.range.start.line = st.line + a.count '\n' ∧
      ((∃ nm, tok.kind = TokenKind.TagName nm ∧ nm = tok.span.source) ∨
       (∃ nm, tok.kind = TokenKind.TagEnd nm ∧ nm = tok.span.source)) := by
  unfold consume_tag at h
  split at h
  · simp at h
  · rename_i c hhead
    split at h
    · rename_i hc
      subst hc
      simp only [] at h
      have s0 : Steps st (move_cursor1 st) ['<'] := move_cursor1_steps hhead
      split at h
      · exact Except.noConfusion h
      · rename_i slash hslash
        cases slash with
        | none =>
          -- no `/`: an opening tag, `is_closing = false`
          simp only [Option.isSome] at h
          split at h
          · exact Except.noConfusion h
          · rename_i idOpt st₃ hident
            rw [if_neg (by simp)] at h
            obtain ⟨w, hw, hrest⟩ := consume_identifier_spec hident
            cases idOpt with
            | some sp =>
              simp only [] at h
              injection h with h1
              injection h1 with h2
              injection h2 with ha hb
              subst ha
              subst hb
              obtain ⟨hsteps, hne, hchars, hstart⟩ := hrest
              refine ⟨'<' :: w, [], ?_, ?_, allDiscard_nil, by simp, ?_, ?_⟩
              · have := s0.trans hsteps
                simpa using this
              · exact allDiscard_cons (by decide) (allDiscard_of_ws hw)
              · show sp.range.start.line = _
                rw [hstart, s0.line_eq, count_cons_ne (by decide)]
                simp
              · exact Or.inl ⟨sp.source, rfl, rfl⟩
            | none =>
              simp only [] at h
              injection h with h1
              injection h1 with h2
              injection h2 with ha hb
              subst ha
              subst hb
              refine ⟨'<' :: w, [], ?_, ?_, allDiscard_nil, by simp, ?_, ?_⟩
              · have := s0.trans hrest
                simpa [Span.point] using this
              · exact allDiscard_cons (by decide) (allDiscard_of_ws hw)
              · show st₃.line = _
                rw [hrest.line_eq, s0.line_eq, count_cons_ne (by decide)]
                simp
              · exact Or.inl ⟨[], rfl, rfl⟩
        | some p =>
          -- a `/` was consumed: a closing tag, `is_closing = true`
          obtain ⟨spSlash, st₂⟩ := p
          obtain ⟨s1, _, _, _⟩ := consume_character_some hslash
          simp only [Option.isSome] at h
          split at h
          · exact Except.noConfusion h
          · rename_i idOpt st₃ hident
            rw [if_pos trivial] at h
            obtain ⟨w, hw, hrest⟩ := consume_identifier_spec hident
            split at h
            · exact Except.noConfusion h
            · rename_i r hgt
              have hs0w : Steps st st₂ ('<' :: '/' :: []) := s0.trans s1
              have hline₂ : st₂.line = st.line := by
                rw [s1.line_eq, s0.line_eq]
                simp
              cases idOpt with
              | some sp =>
                obtain ⟨hsteps, hne, hchars, hstart⟩ := hrest
                cases r with
                | none =>
                  simp only [] at h
                  injection h with h1
                  injection h1 with h2
                  injection h2 with ha hb
                  subst ha
                  subst hb
                  refine ⟨'<' :: '/' :: w, [], ?_, ?_, allDiscard_nil, by simp, ?_, ?_⟩
                  · have := (hs0w.trans hsteps)
                    simpa using this
                  · exact allDiscard_cons (by decide)
                      (allDiscard_cons (by decide) (allDiscard_of_ws hw))
                  · show sp.range.start.line = _
                    rw [hstart, hline₂, count_cons_ne (by decide), count_cons_ne (by decide)]
                  · exact Or.inr ⟨sp.source, rfl, rfl⟩
                | some q =>
                  obtain ⟨spGt, st₄⟩ := q
                  obtain ⟨s3, _, _, _⟩ := consume_character_some hgt
                  simp only [] at h
                  injection h with h1
                  injection h1 with h2
                  injection h2 with ha hb
                  subst ha
                  subst hb
                  refine ⟨'<' :: '/' :: w, ['>'], ?_, ?_, ?_, by simp, ?_, ?_⟩
                  · have := (hs0w.trans hsteps).trans s3
                    simpa using this
                  · exact allDiscard_cons (by decide)
                      (allDiscard_cons (by decide) (allDiscard_of_ws hw))
                  · exact allDiscard_cons (by decide) allDiscard_nil
                  · show sp.range.start.line = _
                    rw [hstart, hline₂, count_cons_ne (by decide), count_cons_ne (by decide)]
                  · exact Or.inr ⟨sp.source, rfl, rfl⟩
              | none =>
                cases r with
                | none =>
                  simp only [] at h
                  injection h with h1
                  injection h1 with h2
                  injection h2 with ha hb
                  subst ha
                  subst hb
                  refine ⟨'<' :: '/' :: w, [], ?_, ?_, allDiscard_nil, by simp, ?_, ?_⟩
                  · have := hs0w.trans hrest
                    simpa [Span.point] using this
                  · exact allDiscard_cons (by decide)
                      (allDiscard_cons (by decide) (allDiscard_of_ws hw))
                  · show st₃.line = _
                    rw [hrest.line_eq, hline₂, count_cons_ne (by decide),
                      count_cons_ne (by decide)]
                  · exact Or.inr ⟨[], rfl, rfl⟩
                | some q =>
                  obtain ⟨spGt, st₄⟩ := q
                  obtain ⟨s3, _, _, _⟩ := consume_character_some hgt
                  simp only [] at h
                  injection h with h1
                  injection h1 with h2
                  injection h2 with ha hb
                  subst ha
                  subst hb
                  refine ⟨'<' :: '/' :: w, ['>'], ?_, ?_, ?_, by simp, ?_, ?_⟩
                  · have := (hs0w.trans hrest).trans s3
                    simpa [Span.point] using this
                  · exact allDiscard_cons (by decide)
                      (allDiscard_cons (by decide) (allDiscard_of_ws hw))
                  · exact allDiscard_cons (by decide) allDiscard_nil
                  · show st₃.line = _
                    rw [hrest.line_eq, hline₂, count_cons_ne (by decide),
                      count_cons_ne (by decide)]
                  · exact Or.inr ⟨[], rfl, rfl⟩
    · simp at h

theorem consume_quoted_value_spec {q : Char} {st : Tokenizer} {tok : Token} {st' : Tokenizer}
    (hq : isDiscard q = true)
    (h : consume_quoted_value q st = .ok (tok, st')) :
    ∃ a b, Steps st st' (a ++ tok.span.source ++ b) ∧ allDiscard a ∧ allDiscard b ∧
      tok.span.range.start.line = st.line + a.count '\n' ∧
      (∃ v, tok.kind = TokenKind.AttributeValue v) := by
  unfold consume_quoted_value at h
  split at h
  · exact Except.noConfusion h
  · -- a nonempty run before the closing quote
    rename_i sp st₁ hcc
    obtain ⟨hsteps, _, _, hstart, _⟩ := consume_characters_some hcc
    split at h
    · exact Except.noConfusion h
    · rename_i r hclose
      cases r with
      | none =>
        simp only [] at h
        injection h with h1
        injection h1 with ha hb
        subst ha
        subst hb
        refine ⟨[], [], ?_, allDiscard_nil, allDiscard_nil, ?_, ⟨sp.source, rfl⟩⟩
        · simpa using hsteps
        · rw [hstart]; simp [current_position]
      | some qq =>
        obtain ⟨spq, st₂⟩ := qq
        obtain ⟨s3, _, _, _⟩ := consume_character_some hclose
        simp only [] at h
        injection h with h1
        injection h1 with ha hb
        subst ha
        subst hb
        refine ⟨[], [q], ?_, allDiscard_nil, allDiscard_cons hq allDiscard_nil, ?_,
          ⟨sp.source, rfl⟩⟩
        · have := hsteps.trans s3
          simpa using this
        · rw [hstart]; simp [current_position]
  · -- empty run: the next character is the closing quote or the input ended
    rename_i hcc
    have htw := consume_characters_none hcc
    split at h
    · exact Except.noConfusion h
    · rename_i r hclose
      cases r with
      | none =>
        simp only [] at h
        injection h with h1
        injection h1 with ha hb
        subst ha
        subst hb
        refine ⟨[], [], ?_, allDiscard_nil, allDiscard_nil, ?_, ⟨[], rfl⟩⟩
        · simpa [Span.point] using Steps.nil st
        · simp [Span.point, current_position]
      | some qq =>
        obtain ⟨spq, st₁⟩ := qq
        obtain ⟨s3, _, _, _⟩ := consume_character_some hclose
        simp only [] at h
        injection h with h1
        injection h1 with ha hb
        subst ha
        subst hb
        refine ⟨[q], [], ?_, allDiscard_cons hq allDiscard_nil, allDiscard_nil, ?_, ⟨[], rfl⟩⟩
        · simpa [Span.point] using s3
        · rw [Span.point]
          show st₁.line = _
          rw [s3.line_eq]

theorem consume_attribute_value_spec {st : Tokenizer} {tok : Token} {st' : Tokenizer}
    (h : consume_attribute_value st = .ok (tok, st')) :
    ∃ a b, Steps st st' (a ++ tok.span.source ++ b) ∧ allDiscard a ∧ allDiscard b ∧
      tok.span.range.start.line = st.line + a.count '\n' ∧
      (∃ v, tok.kind = TokenKind.AttributeValue v) := by
  unfold consume_attribute_value at h
  split at h
  · exact Except.noConfusion h
  · -- no `=`: a point span, nothing consumed
    simp only [] at h
    injection h with h1
    injection h1 with ha hb
    subst ha
    subst hb
    refine ⟨[], [], ?_, allDiscard_nil, allDiscard_nil, ?_, ⟨[], rfl⟩⟩
    · simpa [Span.point] using Steps.nil st
    · simp [Span.point, current_position]
  · rename_i speq st₁ heq
    obtain ⟨seq, _, _, _⟩ := consume_character_some heq
    have hline₁ : st₁.line = st.line := by
      rw [seq.line_eq]; simp
    split at h
    · exact Except.noConfusion h
    · -- double-quoted value
      rename_i spdq st₂ hdq
      obtain ⟨sdq, _, _, _⟩ := consume_character_some hdq
      obtain ⟨a, b, hsteps, hda, hdb, hline, hkind⟩ :=
        consume_quoted_value_spec (q := '"') (by decide) h
      refine ⟨'=' :: '"' :: a, b, ?_, ?_, hdb, ?_, hkind⟩
      · have := (seq.trans sdq).trans hsteps
        simpa using this
      · exact allDiscard_cons (by decide) (allDiscard_cons (by decide) hda)
      · rw [hline, sdq.line_eq, hline₁, count_cons_ne (by decide), count_cons_ne (by decide)]
        simp
    · -- not double-quoted: try single quote
      split at h
      · exact Except.noConfusion h
      · -- single-quoted value
        rename_i spsq st₂ hsq
        obtain ⟨ssq, _, _, _⟩ := consume_character_some hsq
        obtain ⟨a, b, hsteps, hda, hdb, hline, hkind⟩ :=
          consume_quoted_value_spec (q := '\'') (by decide) h
        refine ⟨'=' :: '\'' :: a, b, ?_, ?_, hdb, ?_, hkind⟩
        · have := (seq.trans ssq).trans hsteps
          simpa using this
        · exact allDiscard_cons (by decide) (allDiscard_cons (by decide) hda)
        · rw [hline, ssq.line_eq, hline₁, count_cons_ne (by decide), count_cons_ne (by decide)]
          simp
      · -- unquoted value
        split at h
        · exact Except.noConfusion h
        · rename_i sp st₂ hcc
          obtain ⟨hsteps, _, _, hstart, _⟩ := consume_characters_some hcc
          injection h with h1
          injection h1 with ha hb
          subst ha
          subst hb
          refine ⟨['='], [], ?_, allDiscard_cons (by decide) allDiscard_nil,
            allDiscard_nil, ?_, ⟨sp.source, rfl⟩⟩
          · have := seq.trans hsteps
            simpa using this
          · rw [hstart]
            show st₁.line = _
            rw [hline₁, count_cons_ne (by decide)]
            simp
        · -- no unquoted run either: a point span after the `=`
          simp only [] at h
          injection h with h1
          injection h1 with ha hb
          subst ha
          subst hb
          refine ⟨['='], [], ?_, allDiscard_cons (by decide) allDiscard_nil,
            allDiscard_nil, ?_, ⟨[], rfl⟩⟩
          · simpa [Span.point] using seq
          · rw [Span.point]
            show st₁.line = _
            rw [hline₁, count_cons_ne (by decide)]
            simp

theorem consume_text_node_spec {st : Tokenizer} {t : Token} {st₁ : Tokenizer}
    (h : consume_text_node st = .ok (some (t, st₁))) :
    Steps st st₁ t.span.source ∧ t.span.source ≠ [] ∧
      t.span.range.start = current_position st ∧
      t.kind = TokenKind.Text t.span.source := by
  unfold consume_text_node at h
  split at h
  · exact Except.noConfusion h
  · simp at h
  · rename_i sp st₂ hcc
    injection h with h1
    injection h1 with h2
    injection h2 with ha hb
    subst ha
    subst hb
    obtain ⟨hsteps, _, hne, hstart, _⟩ := consume_characters_some hcc
    exact ⟨hsteps, hne, hstart, rfl⟩

theorem consume_opening_tag_end_spec {st : Tokenizer} {t : Token} {st₁ : Tokenizer}
    (h : consume_opening_tag_end st = .ok (some (t, st₁))) :
    Steps st st₁ ['>'] ∧ t.span.source = ['>'] ∧
      t.span.range.start = current_position st ∧
      t.kind = TokenKind.OpeningTagEnd := by
  unfold consume_opening_tag_end at h
  split at h
  · exact Except.noConfusion h
  · simp at h
  · rename_i sp st₂ hc
    injection h with h1
    injection h1 with h2
    injection h2 with ha hb
    subst ha
    subst hb
    obtain ⟨hsteps, hsrc, hstart, _⟩ := consume_character_some hc
    exact ⟨hsteps, hsrc, hstart, rfl⟩

theorem consume_attribute_name_spec {st : Tokenizer} {o : Option Token} {st₁ : Tokenizer}
    (h : consume_attribute_name st = .ok (o, st₁)) :
    ∃ w, (∀ c ∈ w, rustIsWhitespace c = true) ∧
      (match o with
       | none => Steps st st₁ w
       | some t => Steps st st₁ (w ++ t.span.source) ∧ t.span.source ≠ [] ∧
           t.span.range.start.line = st.line + w.count '\n' ∧
           t.kind = TokenKind.AttributeName t.span.source) := by
  unfold consume_attribute_name at h
  split at h
  · exact Except.noConfusion h
  · rename_i st₂ hid
    injection h with h1
    injection h1 with ha hb
    subst ha
    subst hb
    obtain ⟨w, hw, hsteps⟩ := consume_identifier_spec hid
    exact ⟨w, hw, hsteps⟩
  · rename_i sp st₂ hid
    injection h with h1
    injection h1 with ha hb
    subst ha
    subst hb
    obtain ⟨w, hw, hsteps, hne, _, hline⟩ := consume_identifier_spec hid
    exact ⟨w, hw, hsteps, hne, hline, rfl⟩

theorem chunk_length_le {st : Tokenizer} {chunk : List Char}
    (h : chunk = (st.source.drop st.pos).take chunk.length) :
    chunk.length ≤ st.source.length - st.pos := by
  have hlen := congrArg List.length h
  rw [List.length_take, List.length_drop] at hlen
  omega

theorem tokenFuel_eq (st : Tokenizer) :
    tokenFuel st = 2 * (st.source.length - st.pos) +
      (if st.consume_mode = ConsumeMode.AttributeValue then 1 else 0) := by
  unfold tokenFuel
  cases st.consume_mode <;> simp

theorem tokenFuel_lt {st stN : Tokenizer} {k u v : Nat}
    (hsrc : stN.source = st.source) (hpos : stN.pos = st.pos + k)
    (hlen : k ≤ st.source.length - st.pos)
    (hS : tokenFuel st = 2 * (st.source.length - st.pos) + u)
    (hN : tokenFuel stN = 2 * (stN.source.length - stN.pos) + v)
    (hlt : v < u + 2 * k) :
    tokenFuel stN < tokenFuel st := by
  rw [hS, hN, hsrc, hpos]
  omega

/-- The per-call conclusions of `next_spec` that depend on whether a token was
emitted. -/
def NextSpecRes (st : Tokenizer) (r : Option Token) (st' : Tokenizer)
    (chunk : List Char) : Prop :=
  match r with
  | none =>
      allDiscard chunk ∧ st'.consume_mode = st.consume_mode ∧
      st.consume_mode ≠ ConsumeMode.AttributeValue
  | some t =>
      (∃ a b, chunk = a ++ t.span.source ++ b ∧ allDiscard a ∧ allDiscard b ∧
        t.span.range.start.line = st.line + a.count '\n') ∧
      tokenFuel st' < tokenFuel st ∧
      (st.consume_mode = ConsumeMode.AttributeValue →
        (∃ v, t.kind = TokenKind.AttributeValue v) ∧
        st'.consume_mode = ConsumeMode.AttributeName) ∧
      ((∀ v, t.kind ≠ TokenKind.AttributeValue v) → chunk ≠ [])

theorem next_attrName_cont {st st₂ : Tokenizer} {dsl : List Char} {r : Option Token}
    {st' : Tokenizer}
    (hm : st.consume_mode = ConsumeMode.AttributeName)
    (hdsteps : Steps st st₂ dsl) (hddisc : allDiscard dsl)
    (h : (match consume_opening_tag_end st₂ with
          | Except.error e => Except.error e
          | Except.ok (some (t, st₃)) =>
            Except.ok (some t, { st₃ with consume_mode := ConsumeMode.OutsideTag })
          | Except.ok none =>
            match consume_attribute_name st₂ with
            | Except.error e => Except.error e
            | Except.ok (some t, st₃) =>
              Except.ok (some t, { st₃ with consume_mode := ConsumeMode.AttributeValue })
            | Except.ok (none, st₃) => Except.ok (none, st₃)) = Except.ok (r, st')) :
    st'.source = st.source ∧
    ∃ chunk, st'.pos = st.pos + chunk.length ∧
      chunk = (st.source.drop st.pos).take chunk.length ∧
      st'.line = st.line + chunk.count '\n' ∧
      NextSpecRes st r st' chunk := by

  split at h
  · exact Except.noConfusion h
  · -- OpeningTagEnd token; mode switches to OutsideTag
    rename_i t st₃ hote
    injection h with h1
    injection h1 with ha hb
    subst ha
    subst hb
    obtain ⟨hsteps3, hsrc3, hstart3, hkd3⟩ := consume_opening_tag_end_spec hote
    have htot : Steps st st₃ (dsl ++ ['>']) := hdsteps.trans hsteps3
    have hch := chunk_length_le htot.chunk_eq
    have hk1 : 1 ≤ (dsl ++ ['>']).length := by simp
    refine ⟨?_, dsl ++ ['>'], ?_, ?_, ?_, ?_⟩
    · show st₃.source = st.source
      exact htot.source_eq
    · show st₃.pos = _
      exact htot.pos_eq
    · exact htot.chunk_eq
    · show st₃.line = _
      exact htot.line_eq
    refine ⟨⟨dsl, [], by rw [hsrc3]; simp, hddisc, allDiscard_nil, ?_⟩, ?_, ?_, ?_⟩
    · rw [hstart3]
      show st₂.line = _
      exact hdsteps.line_eq
    · refine tokenFuel_lt (k := (dsl ++ ['>']).length) (u := 0) (v := 0)
        htot.source_eq htot.pos_eq hch ?_ ?_ (by omega)
      · rw [tokenFuel_eq, hm]
        simp
      · rw [tokenFuel_eq]
        simp
    · intro habs
      rw [hm] at habs
      cases habs
    · intro _
      simp
  · -- no `>`: try an attribute name
    split at h
    · exact Except.noConfusion h
    · -- AttributeName token; mode switches to AttributeValue
      rename_i t st₃ han
      injection h with h1
      injection h1 with ha hb
      subst ha
      subst hb
      obtain ⟨w₂, hw₂, hsteps3, hne3, hline3, hkd3⟩ := consume_attribute_name_spec han
      have htot : Steps st st₃ (dsl ++ (w₂ ++ t.span.source)) := hdsteps.trans hsteps3
      have hch := chunk_length_le htot.chunk_eq
      have hk1 : 1 ≤ (dsl ++ (w₂ ++ t.span.source)).length := by
        have : t.span.source.length ≠ 0 := by
          intro hz
          exact hne3 (List.length_eq_zero.mp hz)
        simp only [List.length_append]
        omega
      refine ⟨?_, dsl ++ (w₂ ++ t.span.source), ?_, ?_, ?_, ?_⟩
      · show st₃.source = st.source
        exact htot.source_eq
      · show st₃.pos = _
        exact htot.pos_eq
      · exact htot.chunk_eq
      · show st₃.line = _
        exact htot.line_eq
      refine ⟨⟨dsl ++ w₂, [], by simp, allDiscard_append hddisc (allDiscard_of_ws hw₂),
        allDiscard_nil, ?_⟩, ?_, ?_, ?_⟩
      · rw [hline3, hdsteps.line_eq, List.count_append]
        omega
      · refine tokenFuel_lt (k := (dsl ++ (w₂ ++ t.span.source)).length) (u := 0)
          (v := 1) htot.source_eq htot.pos_eq hch ?_ ?_ (by omega)
        · rw [tokenFuel_eq, hm]
          simp
        · rw [tokenFuel_eq]
          simp
      · intro habs
        rw [hm] at habs
        cases habs
      · intro _
        intro hc
        rw [List.append_eq_nil] at hc
        exact hne3 (List.append_eq_nil.mp hc.2).2
    · -- neither `>` nor an identifier: None
      rename_i st₃ han
      injection h with h1
      injection h1 with ha hb
      subst ha
      subst hb
      obtain ⟨w₂, hw₂, hsteps3⟩ := consume_attribute_name_spec han
      have htot : Steps st st₃ (dsl ++ w₂) := hdsteps.trans hsteps3
      refine ⟨?_, dsl ++ w₂, ?_, ?_, ?_, ?_⟩
      · show st₃.source = st.source
        exact htot.source_eq
      · show st₃.pos = _
        exact htot.pos_eq
      · exact htot.chunk_eq
      · show st₃.line = _
        exact htot.line_eq
      refine ⟨allDiscard_append hddisc (allDiscard_of_ws hw₂), ?_, ?_⟩
      · show st₃.consume_mode = _
        exact htot.mode_eq
      · rw [hm]
        intro habs
        cases habs

/-- Master specification of one `Tokenizer::next` call: the consumed chunk is
a prefix of the unread input; an emitted token's span text sits inside the
chunk surrounded only by discardable characters; the span's start line counts
the newlines consumed before the span text; a successful call strictly
decreases `tokenFuel`; a `none` result leaves the mode unchanged and never
happens in `AttributeValue` mode; in `AttributeValue` mode the call emits an
`AttributeValue` token and switches the mode back to `AttributeName`; every
token other than an `AttributeValue` consumes at least one character. -/
theorem next_spec {st : Tokenizer} {r : Option Token} {st' : Tokenizer}
    (h : Tokenizer.next st = .ok (r, st')) :
    st'.source = st.source ∧
    ∃ chunk, st'.pos = st.pos + chunk.length ∧
      chunk = (st.source.drop st.pos).take chunk.length ∧
      st'.line = st.line + chunk.count '\n' ∧
      NextSpecRes st r st' chunk := by
  unfold Tokenizer.next at h
  split at h
  · -- OutsideTag mode
    rename_i hm
    split at h
    · exact Except.noConfusion h
    · -- a tag token was produced
      rename_i tag st₁ htag
      simp only [] at h
      injection h with h1
      injection h1 with ha hb
      subst ha
      subst hb
      obtain ⟨a, b, hsteps, hda, hdb, hane, hline, hkind⟩ := consume_tag_spec htag
      have hch := chunk_length_le hsteps.chunk_eq
      have hchne : (a ++ tag.span.source ++ b) ≠ [] := by
        intro hc
        rw [List.append_assoc, List.append_eq_nil] at hc
        exact hane hc.1
      have hk1 : 1 ≤ (a ++ tag.span.source ++ b).length := by
        cases hc : a ++ tag.span.source ++ b with
        | nil => exact absurd hc hchne
        | cons x xs => simp [hc]
      have hSfuel : tokenFuel st = 2 * (st.source.length - st.pos) + 0 := by
        rw [tokenFuel_eq, hm]
        simp
      rcases hkind with ⟨nm, hkd, _⟩ | ⟨nm, hkd, _⟩
      · -- TagName: mode switches to AttributeName
        have hite : (if isTagEnd tag.kind then st₁
            else { st₁ with consume_mode := ConsumeMode.AttributeName }) =
            { st₁ with consume_mode := ConsumeMode.AttributeName } := by
          rw [hkd]
          rfl
        simp only [hite]
        refine ⟨hsteps.source_eq, a ++ tag.span.source ++ b, hsteps.pos_eq,
          hsteps.chunk_eq, hsteps.line_eq, ?_⟩
        refine ⟨⟨a, b, rfl, hda, hdb, hline⟩, ?_, ?_, fun _ => hchne⟩
        · refine tokenFuel_lt (k := (a ++ tag.span.source ++ b).length) (u := 0) (v := 0)
            hsteps.source_eq hsteps.pos_eq hch hSfuel ?_ (by omega)
          rw [tokenFuel_eq]
          simp
        · intro habs
          rw [hm] at habs
          cases habs
      · -- TagEnd: mode stays OutsideTag
        have hite : (if isTagEnd tag.kind then st₁
            else { st₁ with consume_mode := ConsumeMode.AttributeName }) = st₁ := by
          rw [hkd]
          rfl
        simp only [hite]
        refine ⟨hsteps.source_eq, a ++ tag.span.source ++ b, hsteps.pos_eq,
          hsteps.chunk_eq, hsteps.line_eq, ?_⟩
        refine ⟨⟨a, b, rfl, hda, hdb, hline⟩, ?_, ?_, fun _ => hchne⟩
        · refine tokenFuel_lt (k := (a ++ tag.span.source ++ b).length) (u := 0) (v := 0)
            hsteps.source_eq hsteps.pos_eq hch hSfuel ?_ (by omega)
          rw [tokenFuel_eq, hsteps.mode_eq, hm]
          simp
        · intro habs
          rw [hm] at habs
          cases habs
    · -- no tag: try a text node
      split at h
      · exact Except.noConfusion h
      · -- a text token
        rename_i t st₁ htext
        injection h with h1
        injection h1 with ha hb
        subst ha
        subst hb
        obtain ⟨hsteps, hne, hstart, hkd⟩ := consume_text_node_spec htext
        have hch := chunk_length_le hsteps.chunk_eq
        have hk1 : 1 ≤ t.span.source.length := by
          cases hc : t.span.source with
          | nil => exact absurd hc hne
          | cons x xs => simp [hc]
        refine ⟨hsteps.source_eq, t.span.source, hsteps.pos_eq,
          hsteps.chunk_eq, hsteps.line_eq, ?_⟩
        refine ⟨⟨[], [], by simp, allDiscard_nil, allDiscard_nil, ?_⟩, ?_, ?_, fun _ => hne⟩
        · rw [hstart]
          simp [current_position]
        · refine tokenFuel_lt (k := t.span.source.length) (u := 0) (v := 0)
            hsteps.source_eq hsteps.pos_eq hch ?_ ?_ (by omega)
          · rw [tokenFuel_eq, hm]
            simp
          · rw [tokenFuel_eq, hsteps.mode_eq, hm]
            simp
        · intro habs
          rw [hm] at habs
          cases habs
      · -- nothing at all: the stream is exhausted here
        injection h with h1
        injection h1 with ha hb
        subst ha
        subst hb
        refine ⟨rfl, [], by simp, by simp, by simp, allDiscard_nil, rfl, ?_⟩
        rw [hm]
        intro habs
        cases habs
  · -- AttributeName mode
    rename_i hm
    split at h
    · exact Except.noConfusion h
    · rename_i st₁ hws
      obtain ⟨w, hwsteps, hwchars⟩ := consume_whitespace_spec hws
      cases hslash : consume_character st₁ '/' with
      | error e =>
        rw [hslash] at h
        exact Except.noConfusion h
      | ok slash =>
        rw [hslash] at h
        cases slash with
        | none =>
          simp only [] at h
          exact next_attrName_cont hm hwsteps (allDiscard_of_ws hwchars) h
        | some p =>
          obtain ⟨spsl, stsl⟩ := p
          obtain ⟨s1, _, _, _⟩ := consume_character_some hslash
          simp only [] at h
          exact next_attrName_cont hm (hwsteps.trans s1)
            (allDiscard_append (allDiscard_of_ws hwchars)
              (allDiscard_cons (by decide) allDiscard_nil)) h
  · -- AttributeValue mode: always exactly one AttributeValue token
    rename_i hm
    simp only [] at h
    split at h
    · exact Except.noConfusion h
    · rename_i t st₁ hav
      injection h with h1
      injection h1 with ha hb
      subst ha
      subst hb
      obtain ⟨a, b, hsteps, hda, hdb, hline, v, hkd⟩ := consume_attribute_value_spec hav
      have hch := chunk_length_le hsteps.chunk_eq
      refine ⟨hsteps.source_eq, a ++ t.span.source ++ b, hsteps.pos_eq, hsteps.chunk_eq,
        hsteps.line_eq, ?_⟩
      refine ⟨⟨a, b, rfl, hda, hdb, hline⟩, ?_, ?_, ?_⟩
      · refine tokenFuel_lt (k := (a ++ t.span.source ++ b).length) (u := 1) (v := 0)
          hsteps.source_eq hsteps.pos_eq hch ?_ ?_ (by omega)
        · rw [tokenFuel_eq, hm]
          simp
        · rw [tokenFuel_eq, hsteps.mode_eq]
          simp
      · intro _
        exact ⟨⟨v, hkd⟩, hsteps.mode_eq⟩
      · intro hall
        exact absurd hkd (hall v)

/-! ### Corollaries of the master lemma and fuel sufficiency -/

theorem next_fuel_some {st : Tokenizer} {t : Token} {st' : Tokenizer}
    (h : Tokenizer.next st = .ok (some t, st')) : tokenFuel st' < tokenFuel st := by
  obtain ⟨_, _, _, _, _, hres⟩ := next_spec h
  exact hres.2.1

theorem next_fuel_none {st st' : Tokenizer} (h : Tokenizer.next st = .ok (none, st')) :
    tokenFuel st' ≤ tokenFuel st := by
  obtain ⟨hsrc, chunk, hpos, hch, _, hres⟩ := next_spec h
  obtain ⟨_, hmode, _⟩ := hres
  have hlen := chunk_length_le hch
  rw [tokenFuel_eq, tokenFuel_eq, hsrc, hpos, hmode]
  omega

theorem next_none_mode {st st' : Tokenizer} (h : Tokenizer.next st = .ok (none, st')) :
    st'.consume_mode = st.consume_mode ∧ st.consume_mode ≠ ConsumeMode.AttributeValue := by
  obtain ⟨_, _, _, _, _, hres⟩ := next_spec h
  exact ⟨hres.2.1, hres.2.2⟩

theorem tokenize_isSome : ∀ (f : Nat) (st : Tokenizer), tokenFuel st < f →
    (tokenize f st).isSome := by
  intro f
  induction f with
  | zero =>
    intro st hf
    omega
  | succ f ih =>
    intro st hf
    unfold tokenize
    cases hn : Tokenizer.next st with
    | error e => simp
    | ok p =>
      obtain ⟨r, st₁⟩ := p
      cases r with
      | none => simp
      | some t =>
        have hf1 : tokenFuel st₁ < f := by
          have h1 := next_fuel_some hn
          omega
        have hs := ih st₁ hf1
        cases ht : tokenize f st₁ with
        | none =>
          rw [ht] at hs
          cases hs
        | some q =>
          cases q with
          | error e => simp [ht]
          | ok pr => simp [ht]

theorem tokenize_irrel : ∀ (f g : Nat) (st : Tokenizer), tokenFuel st < f →
    tokenFuel st < g → tokenize f st = tokenize g st := by
  intro f
  induction f with
  | zero =>
    intro g st hf hg
    omega
  | succ f ih =>
    intro g st hf hg
    cases g with
    | zero => omega
    | succ g =>
      show tokenize (f + 1) st = tokenize (g + 1) st
      unfold tokenize
      cases hn : Tokenizer.next st with
      | error e => rfl
      | ok p =>
        obtain ⟨r, st₁⟩ := p
        cases r with
        | none => rfl
        | some t =>
          have h1 := next_fuel_some hn
          simp only []
          rw [ih g st₁ (by omega) (by omega)]

theorem parse_attributes_fuel : ∀ (f : Nat) {st : Tokenizer} {l : List Attribute}
    {st' : Tokenizer}, parse_attributes f st = some (.ok (l, st')) →
    tokenFuel st' ≤ tokenFuel st := by
  intro f
  induction f with
  | zero =>
    intro st l st' h
    exact Option.noConfusion h
  | succ f ih =>
    intro st l st' h
    unfold parse_attributes at h
    split at h
    · -- next errored
      injection h with h1
      exact Except.noConfusion h1
    · -- next gave none
      rename_i st₁ hn
      injection h with h1
      injection h1 with h2
      injection h2 with ha hb
      subst hb
      exact next_fuel_none hn
    · -- next gave a token
      rename_i tok st₁ hn
      have h1 := next_fuel_some hn
      split at h
      · -- AttributeName: pull the value token and recurse
        split at h
        · injection h with h2
          exact Except.noConfusion h2
        · injection h with h2
          exact Except.noConfusion h2
        · rename_i vtok st₂ hn2
          have h2 := next_fuel_some hn2
          split at h
          · exact Option.noConfusion h
          · injection h with h3
            exact Except.noConfusion h3
          · rename_i attrs st₃ hrec
            injection h with h3
            injection h3 with h4
            injection h4 with ha hb
            subst hb
            have h3 := ih hrec
            omega
      · -- OpeningTagEnd: stop
        injection h with h2
        injection h2 with h3
        injection h3 with ha hb
        subst hb
        omega
      · -- other tokens: skip and recurse
        have h2 := ih h
        omega

theorem parse_attributes_isSome : ∀ (f : Nat) (st : Tokenizer), tokenFuel st < f →
    (parse_attributes f st).isSome := by
  intro f
  induction f with
  | zero =>
    intro st hf
    omega
  | succ f ih =>
    intro st hf
    unfold parse_attributes
    cases hn : Tokenizer.next st with
    | error e => simp
    | ok p =>
      obtain ⟨r, st₁⟩ := p
      cases r with
      | none => simp
      | some tok =>
        have h1 := next_fuel_some hn
        cases hk : tok.kind with
        | AttributeName nm =>
          simp only [hk]
          cases hn2 : Tokenizer.next st₁ with
          | error e => simp
          | ok q =>
            obtain ⟨r₂, st₂⟩ := q
            cases r₂ with
            | none => simp
            | some vtok =>
              have h2 := next_fuel_some hn2
              have hs := ih st₂ (by omega)
              cases hrec : parse_attributes f st₂ with
              | none =>
                rw [hrec] at hs
                cases hs
              | some q2 =>
                cases q2 with
                | error e => simp [hrec]
                | ok pr => simp [hrec]
        | OpeningTagEnd => simp [hk]
        | TagName nm =>
          simp only [hk]
          exact ih st₁ (by omega)
        | AttributeValue v =>
          simp only [hk]
          exact ih st₁ (by omega)
        | Text txt =>
          simp only [hk]
          exact ih st₁ (by omega)
        | TagEnd nm =>
          simp only [hk]
          exact ih st₁ (by omega)

theorem parse_attributes_irrel : ∀ (f g : Nat) (st : Tokenizer), tokenFuel st < f →
    tokenFuel st < g → parse_attributes f st = parse_attributes g st := by
  intro f
  induction f with
  | zero =>
    intro g st hf hg
    omega
  | succ f ih =>
    intro g st hf hg
    cases g with
    | zero => omega
    | succ g =>
      show parse_attributes (f + 1) st = parse_attributes (g + 1) st
      unfold parse_attributes
      cases hn : Tokenizer.next st with
      | error e => rfl
      | ok p =>
        obtain ⟨r, st₁⟩ := p
        cases r with
        | none => rfl
        | some tok =>
          have h1 := next_fuel_some hn
          cases hk : tok.kind with
          | AttributeName nm =>
            simp only [hk]
            cases hn2 : Tokenizer.next st₁ with
            | error e => rfl
            | ok q =>
              obtain ⟨r₂, st₂⟩ := q
              cases r₂ with
              | none => rfl
              | some vtok =>
                have h2 := next_fuel_some hn2
                simp only []
                rw [ih g st₂ (by omega) (by omega)]
          | OpeningTagEnd => simp only [hk]
          | TagName nm =>
            simp only [hk]
            exact ih g st₁ (by omega) (by omega)
          | AttributeValue v =>
            simp only [hk]
            exact ih g st₁ (by omega) (by omega)
          | Text txt =>
            simp only [hk]
            exact ih g st₁ (by omega) (by omega)
          | TagEnd nm =>
            simp only [hk]
            exact ih g st₁ (by omega) (by omega)

theorem parse_fuel : ∀ (f : Nat) {st : Tokenizer} {l : List Node} {st' : Tokenizer},
    parse f st = some (.ok (l, st')) → tokenFuel st' ≤ tokenFuel st := by
  intro f
  induction f with
  | zero =>
    intro st l st' h
    exact Option.noConfusion h
  | succ f ih =>
    intro st l st' h
    unfold parse at h
    split at h
    · injection h with h1
      exact Except.noConfusion h1
    · -- next gave none
      rename_i st₁ hn
      injection h with h1
      injection h1 with h2
      injection h2 with ha hb
      subst hb
      exact next_fuel_none hn
    · -- next gave a token
      rename_i tok st₁ hn
      have h1 := next_fuel_some hn
      split at h
      · -- TagName
        split at h
        · exact Option.noConfusion h
        · injection h with h2
          exact Except.noConfusion h2
        · rename_i attrs st₂ hattrs
          have h2 := parse_attributes_fuel f hattrs
          split at h
          · exact Option.noConfusion h
          · injection h with h3
            exact Except.noConfusion h3
          · rename_i children st₃ hchildren
            have h3 := ih hchildren
            split at h
            · exact Option.noConfusion h
            · injection h with h4
              exact Except.noConfusion h4
            · rename_i nodes st₄ hnodes
              injection h with h4
              injection h4 with h5
              injection h5 with ha hb
              subst hb
              have h4 := ih hnodes
              omega
      · -- Text
        split at h
        · exact Option.noConfusion h
        · injection h with h2
          exact Except.noConfusion h2
        · rename_i nodes st₂ hnodes
          injection h with h2
          injection h2 with h3
          injection h3 with ha hb
          subst hb
          have h2 := ih hnodes
          omega
      · -- discarded token
        have h2 := ih h
        omega

theorem parse_isSome : ∀ (f : Nat) (st : Tokenizer), tokenFuel st < f →
    (parse f st).isSome := by
  intro f
  induction f with
  | zero =>
    intro st hf
    omega
  | succ f ih =>
    intro st hf
    unfold parse
    cases hn : Tokenizer.next st with
    | error e => simp
    | ok p =>
      obtain ⟨r, st₁⟩ := p
      cases r with
      | none => simp
      | some tok =>
        have h1 := next_fuel_some hn
        cases hk : tok.kind with
        | TagName nm =>
          simp only [hk]
          have hsa := parse_attributes_isSome f st₁ (by omega)
          cases hattrs : parse_attributes f st₁ with
          | none =>
            rw [hattrs] at hsa
            cases hsa
          | some q =>
            cases q with
            | error e => simp [hattrs]
            | ok pr =>
              obtain ⟨attrs, st₂⟩ := pr
              have h2 := parse_attributes_fuel f hattrs
              have hsc := ih st₂ (by omega)
              cases hchildren : parse f st₂ with
              | none =>
                rw [hchildren] at hsc
                cases hsc
              | some q2 =>
                cases q2 with
                | error e => simp [hattrs, hchildren]
                | ok pr2 =>
                  obtain ⟨children, st₃⟩ := pr2
                  have h3 := parse_fuel f hchildren
                  have hsn := ih st₃ (by omega)
                  cases hnodes : parse f st₃ with
                  | none =>
                    rw [hnodes] at hsn
                    cases hsn
                  | some q3 =>
                    cases q3 with
                    | error e => simp [hattrs, hchildren, hnodes]
                    | ok pr3 => simp [hattrs, hchildren, hnodes]
        | Text txt =>
          simp only [hk]
          have hsn := ih st₁ (by omega)
          cases hnodes : parse f st₁ with
          | none =>
            rw [hnodes] at hsn
            cases hsn
          | some q =>
            cases q with
            | error e => simp [hnodes]
            | ok pr => simp [hnodes]
        | OpeningTagEnd =>
          simp only [hk]
          exact ih st₁ (by omega)
        | AttributeName nm =>
          simp only [hk]
          exact ih st₁ (by omega)
        | AttributeValue v =>
          simp only [hk]
          exact ih st₁ (by omega)
        | TagEnd nm =>
          simp only [hk]
          exact ih st₁ (by omega)

theorem parse_irrel : ∀ (f g : Nat) (st : Tokenizer), tokenFuel st < f →
    tokenFuel st < g → parse f st = parse g st := by
  intro f
  induction f with
  | zero =>
    intro g st hf hg
    omega
  | succ f ih =>
    intro g st hf hg
    cases g with
    | zero => omega
    | succ g =>
      show parse (f + 1) st = parse (g + 1) st
      unfold parse
      cases hn : Tokenizer.next st with
      | error e => rfl
      | ok p =>
        obtain ⟨r, st₁⟩ := p
        cases r with
        | none => rfl
        | some tok =>
          have h1 := next_fuel_some hn
          cases hk : tok.kind with
          | TagName nm =>
            simp only [hk]
            rw [parse_attributes_irrel f g st₁ (by omega) (by omega)]
            cases hattrs : parse_attributes g st₁ with
            | none => rfl
            | some q =>
              cases q with
              | error e => rfl
              | ok pr =>
                obtain ⟨attrs, st₂⟩ := pr
                have hga : tokenFuel st₂ ≤ tokenFuel st₁ := parse_attributes_fuel g hattrs
                simp only []
                rw [ih g st₂ (by omega) (by omega)]
                cases hchildren : parse g st₂ with
                | none => rfl
                | some q2 =>
                  cases q2 with
                  | error e => rfl
                  | ok pr2 =>
                    obtain ⟨children, st₃⟩ := pr2
                    have hgc : tokenFuel st₃ ≤ tokenFuel st₂ := parse_fuel g hchildren
                    simp only []
                    rw [ih g st₃ (by omega) (by omega)]
          | Text txt =>
            simp only [hk]
            rw [ih g st₁ (by omega) (by omega)]
          | OpeningTagEnd =>
            simp only [hk]
            exact ih g st₁ (by omega) (by omega)
          | AttributeName nm =>
            simp only [hk]
            exact ih g st₁ (by omega) (by omega)
          | AttributeValue v =>
            simp only [hk]
            exact ih g st₁ (by omega) (by omega)
          | TagEnd nm =>
            simp only [hk]
            exact ih g st₁ (by omega) (by omega)

theorem take_decomp_s : ∀ (s b l : List Char), s ++ b = l.take (s ++ b).length →
    s = l.take s.length := by
  intro s
  induction s with
  | nil =>
    intro b l _
    rfl
  | cons c s ih =>
    intro b l h
    cases l with
    | nil => simp at h
    | cons x l' =>
      simp only [List.cons_append, List.length_cons, List.take_succ_cons] at h
      obtain ⟨hc, hrest⟩ := List.cons.inj h
      subst hc
      rw [List.length_cons, List.take_succ_cons]
      exact congrArg (List.cons c) (ih b l' hrest)

theorem take_decomp : ∀ (a s b l : List Char), a ++ s ++ b = l.take (a ++ s ++ b).length →
    a = l.take a.length ∧ s = (l.drop a.length).take s.length := by
  intro a
  induction a with
  | nil =>
    intro s b l h
    refine ⟨rfl, ?_⟩
    simpa using take_decomp_s s b l (by simpa using h)
  | cons c a ih =>
    intro s b l h
    cases l with
    | nil => simp at h
    | cons x l' =>
      simp only [List.cons_append, List.length_cons, List.take_succ_cons] at h
      obtain ⟨hc, hrest⟩ := List.cons.inj h
      subst hc
      obtain ⟨h1, h2⟩ := ih s b l' hrest
      constructor
      · rw [List.length_cons, List.take_succ_cons]
        exact congrArg (List.cons c) h1
      · simpa using h2

/-- `chunk` consists of the given span texts, in order, separated (before,
between and after) only by discardable characters. -/
inductive Interleaves : List (List Char) → List Char → Prop where
  | nil (d : List Char) : allDiscard d → Interleaves [] d
  | cons (a s r : List Char) (ss : List (List Char)) :
      allDiscard a → Interleaves ss r → Interleaves (s :: ss) (a ++ s ++ r)

theorem Interleaves.discard_prepend {ss : List (List Char)} {r : List Char}
    (b : List Char) (hb : allDiscard b) (h : Interleaves ss r) :
    Interleaves ss (b ++ r) := by
  induction h with
  | nil d hd => exact Interleaves.nil (b ++ d) (allDiscard_append hb hd)
  | cons a s r' ss ha hrest ih =>
    have hshape : b ++ (a ++ s ++ r') = (b ++ a) ++ s ++ r' := by
      simp [List.append_assoc]
    rw [hshape]
    exact Interleaves.cons (b ++ a) s r' ss (allDiscard_append hb ha) hrest

/-- The concatenation of the interleaved span texts is the chunk with only
discardable characters removed; in particular it is a sublist. -/
theorem Interleaves.flatten_sublist {ss : List (List Char)} {c : List Char}
    (h : Interleaves ss c) : ss.flatten.Sublist c := by
  induction h with
  | nil d _ => simp
  | cons a s r ss _ _ ih =>
    rw [List.flatten_cons]
    have h1 : (s ++ ss.flatten).Sublist (s ++ r) := (List.Sublist.refl s).append ih
    have h2 : (s ++ r).Sublist (a ++ s ++ r) := by
      rw [List.append_assoc]
      exact List.sublist_append_right a (s ++ r)
    exact h1.trans h2

/-- Every drained scanner run consumes a prefix of the unread input in which
the emitted span texts appear in order, separated only by discardable
characters. -/
theorem tokenize_interleaves : ∀ (f : Nat) {st : Tokenizer} {ts : List Token}
    {st' : Tokenizer}, tokenize f st = some (.ok (ts, st')) →
    st'.source = st.source ∧ st.pos ≤ st'.pos ∧
    Interleaves (ts.map fun t => t.span.source)
      ((st.source.drop st.pos).take (st'.pos - st.pos)) := by
  intro f
  induction f with
  | zero =>
    intro st ts st' h
    exact Option.noConfusion h
  | succ f ih =>
    intro st ts st' h
    unfold tokenize at h
    split at h
    · injection h with h1
      exact Except.noConfusion h1
    · rename_i st₁ hn
      injection h with h1
      injection h1 with h2
      injection h2 with ha hb
      subst ha
      subst hb
      obtain ⟨hsrc, chunk, hpos, hch, hline, hres⟩ := next_spec hn
      obtain ⟨hdisc, _, _⟩ := hres
      refine ⟨hsrc, by omega, ?_⟩
      have hck : (st.source.drop st.pos).take (st₁.pos - st.pos) = chunk := by
        rw [hpos, Nat.add_sub_cancel_left, ← hch]
      rw [hck]
      exact Interleaves.nil chunk hdisc
    · rename_i t st₁ hn
      split at h
      · exact Option.noConfusion h
      · injection h with h1
        exact Except.noConfusion h1
      · rename_i ts₂ st₂ hrec
        injection h with h1
        injection h1 with h2
        injection h2 with ha hb
        subst ha
        subst hb
        obtain ⟨hsrc, chunk, hpos, hch, hline, hres⟩ := next_spec hn
        obtain ⟨⟨a, b, hdecomp, hda, hdb, _⟩, _, _, _⟩ := hres
        obtain ⟨hsrc₂, hple₂, hint₂⟩ := ih hrec
        have hsrc₂' : st₂.source = st.source := by rw [hsrc₂, hsrc]
        refine ⟨hsrc₂', by omega, ?_⟩
        have hsplit : (st.source.drop st.pos).take (st₂.pos - st.pos) =
            chunk ++ (st.source.drop st₁.pos).take (st₂.pos - st₁.pos) := by
          have hr : st₂.pos - st.pos = chunk.length + (st₂.pos - st₁.pos) := by omega
          have hdd : (st.source.drop st.pos).drop chunk.length = st.source.drop st₁.pos := by
            rw [List.drop_drop]
            congr 1
            omega
          rw [hr, List.take_add, ← hch, hdd]
        rw [hsplit, hdecomp]
        have hint₂' : Interleaves (ts₂.map fun t => t.span.source)
            ((st.source.drop st₁.pos).take (st₂.pos - st₁.pos)) := by
          rw [← hsrc]
          exact hint₂
        have hpre := Interleaves.discard_prepend b hdb hint₂'
        have hfinal := Interleaves.cons a t.span.source
          (b ++ (st.source.drop st₁.pos).take (st₂.pos - st₁.pos))
          (ts₂.map fun t => t.span.source) hda hpre
        simpa [List.append_assoc] using hfinal

/-- Every token of a drained scanner run has its span text at some offset `p`
of the buffer, and its start line counts the newlines before that offset. -/
theorem tokenize_lines : ∀ (f : Nat) {st : Tokenizer} {ts : List Token} {st' : Tokenizer},
    tokenize f st = some (.ok (ts, st')) →
    st.line = (st.source.take st.pos).count '\n' → st.pos ≤ st.source.length →
    ∀ t ∈ ts, ∃ p, p ≤ st.source.length ∧
      t.span.range.start.line = (st.source.take p).count '\n' ∧
      t.span.source = (st.source.drop p).take t.span.source.length := by
  intro f
  induction f with
  | zero =>
    intro st ts st' h
    exact Option.noConfusion h
  | succ f ih =>
    intro st ts st' h hinv hple
    unfold tokenize at h
    split at h
    · injection h with h1
      exact Except.noConfusion h1
    · rename_i st₁ hn
      injection h with h1
      injection h1 with h2
      injection h2 with ha hb
      subst ha
      subst hb
      intro t ht
      cases ht
    · rename_i t₀ st₁ hn
      split at h
      · exact Option.noConfusion h
      · injection h with h1
        exact Except.noConfusion h1
      · rename_i ts₂ st₂ hrec
        injection h with h1
        injection h1 with h2
        injection h2 with ha hb
        subst ha
        subst hb
        obtain ⟨hsrc, chunk, hpos, hch, hline, hres⟩ := next_spec hn
        obtain ⟨⟨a, b, hdecomp, hda, hdb, hstartline⟩, _, _, _⟩ := hres
        have hchl := chunk_length_le hch
        have hch' : a ++ t₀.span.source ++ b =
            (st.source.drop st.pos).take (a ++ t₀.span.source ++ b).length := by
          rw [← hdecomp]
          exact hch
        obtain ⟨haeq, hseq⟩ := take_decomp a t₀.span.source b (st.source.drop st.pos) hch'
        have halen : a.length ≤ chunk.length := by
          rw [hdecomp]
          simp
        have htakeup : ∀ (k : Nat) (u : List Char),
            u = (st.source.drop st.pos).take u.length → u.length = k →
            st.source.take (st.pos + k) = st.source.take st.pos ++ u := by
          intro k u hu hk
          rw [List.take_add, ← hk, ← hu]
        intro t ht
        rcases List.mem_cons.mp ht with rfl | htail
        · -- the head token sits at offset st.pos + a.length
          refine ⟨st.pos + a.length, by omega, ?_, ?_⟩
          · rw [htakeup a.length a haeq rfl, List.count_append, hstartline, hinv]
          · have hdd : (st.source.drop st.pos).drop a.length =
                st.source.drop (st.pos + a.length) := by
              rw [List.drop_drop, Nat.add_comm]
            rw [← hdd]
            exact hseq
        · -- tail tokens: apply the induction hypothesis at st₁
          have hinv₁ : st₁.line = (st₁.source.take st₁.pos).count '\n' := by
            rw [hsrc, hpos, htakeup chunk.length chunk hch rfl, List.count_append,
              hline, hinv]
          have hple₁ : st₁.pos ≤ st₁.source.length := by
            rw [hsrc, hpos]
            omega
          obtain ⟨p, hp1, hp2, hp3⟩ := ih hrec hinv₁ hple₁ t htail
          rw [hsrc] at hp1 hp2 hp3
          exact ⟨p, hp1, hp2, hp3⟩

/-! ### Byte slicing lemmas for the `value_text` accessor -/

theorem utf8Len_cons (c : Char) (cs : List Char) :
    utf8Len (c :: cs) = c.utf8Size + utf8Len cs := by
  simp [utf8Len]

theorem utf8Len_pos {l : List Char} (h : l ≠ []) : 1 ≤ utf8Len l := by
  cases l with
  | nil => exact absurd rfl h
  | cons c cs =>
    rw [utf8Len_cons]
    have := Char.utf8Size_pos c
    omega

theorem byteTake_exact : ∀ (l₁ l₂ : List Char), byteTake (l₁ ++ l₂) (utf8Len l₁) = some l₁ := by
  intro l₁
  induction l₁ with
  | nil =>
    intro l₂
    have h0 : utf8Len [] = 0 := rfl
    rw [List.nil_append, h0]
    cases l₂ <;> rfl
  | cons c cs ih =>
    intro l₂
    have hpos := Char.utf8Size_pos c
    have hsz : utf8Len (c :: cs) = (c.utf8Size + utf8Len cs - 1) + 1 := by
      rw [utf8Len_cons]
      omega
    rw [List.cons_append, hsz]
    unfold byteTake
    rw [if_pos (by omega)]
    have harg : c.utf8Size + utf8Len cs - 1 + 1 - c.utf8Size = utf8Len cs := by omega
    rw [harg, ih l₂]
    rfl

theorem byteTake_mid_none : ∀ (l₁ : List Char) (c : Char) (j : Nat), 1 ≤ j →
    j < c.utf8Size → byteTake (l₁ ++ [c]) (utf8Len l₁ + j) = none := by
  intro l₁
  induction l₁ with
  | nil =>
    intro c j h1 h2
    have hj : utf8Len [] + j = (j - 1) + 1 := by
      simp [utf8Len]
      omega
    rw [List.nil_append, hj]
    unfold byteTake
    rw [if_neg (by omega)]
  | cons d ds ih =>
    intro c j h1 h2
    have hpos := Char.utf8Size_pos d
    have hsz : utf8Len (d :: ds) + j = (d.utf8Size + utf8Len ds + j - 1) + 1 := by
      rw [utf8Len_cons]
      omega
    rw [List.cons_append, hsz]
    unfold byteTake
    rw [if_pos (by omega)]
    have harg : d.utf8Size + utf8Len ds + j - 1 + 1 - d.utf8Size = utf8Len ds + j := by omega
    rw [harg, ih c j h1 h2]
    rfl

theorem byteDrop_one {q : Char} {cs : List Char} (hq : q.utf8Size = 1) :
    byteDrop (q :: cs) 1 = some cs := by
  show byteDrop (q :: cs) (0 + 1) = some cs
  unfold byteDrop
  rw [if_pos (by omega), hq]
  have h0 : (0 : Nat) + 1 - 1 = 0 := rfl
  rw [h0]
  cases cs <;> rfl

theorem lastCharIsOneByte_getLast : ∀ (l : List Char) (h : l ≠ []),
    lastCharIsOneByte l = ((l.getLast h).utf8Size == 1) := by
  intro l
  induction l with
  | nil =>
    intro h
    exact absurd rfl h
  | cons c cs ih =>
    intro h
    cases cs with
    | nil => rfl
    | cons d ds =>
      rw [show lastCharIsOneByte (c :: d :: ds) = lastCharIsOneByte (d :: ds) from rfl]
      rw [ih (by simp)]
      congr 1

theorem utf8Len_append (l₁ l₂ : List Char) :
    utf8Len (l₁ ++ l₂) = utf8Len l₁ + utf8Len l₂ := by
  simp [utf8Len]

theorem utf8Len_singleton (c : Char) : utf8Len [c] = c.utf8Size := by
  simp [utf8Len]

theorem byteTake_dropLast {l : List Char} (hne : l ≠ [])
    (hlast : lastCharIsOneByte l = true) :
    byteTake l (utf8Len l - 1) = some l.dropLast := by
  have hdecomp := List.dropLast_append_getLast hne
  have hsz : (l.getLast hne).utf8Size = 1 := by
    rw [lastCharIsOneByte_getLast l hne] at hlast
    exact eq_of_beq hlast
  have h2 := congrArg utf8Len hdecomp
  rw [utf8Len_append, utf8Len_singleton] at h2
  have hlen : utf8Len l - 1 = utf8Len l.dropLast := by omega
  have happ := byteTake_exact l.dropLast [l.getLast hne]
  rw [hdecomp] at happ
  rw [hlen]
  exact happ

theorem byteTake_last_multibyte {l : List Char} (hne : l ≠ [])
    (hlast : lastCharIsOneByte l = false) :
    byteTake l (utf8Len l - 1) = none := by
  have hdecomp := List.dropLast_append_getLast hne
  have hsz : (l.getLast hne).utf8Size ≠ 1 := by
    rw [lastCharIsOneByte_getLast l hne] at hlast
    intro h1
    rw [h1] at hlast
    simp at hlast
  have hpos := Char.utf8Size_pos (l.getLast hne)
  have h2 := congrArg utf8Len hdecomp
  rw [utf8Len_append, utf8Len_singleton] at h2
  have hj : utf8Len l - 1 = utf8Len l.dropLast + ((l.getLast hne).utf8Size - 1) := by
    omega
  have happ := byteTake_mid_none l.dropLast (l.getLast hne)
    ((l.getLast hne).utf8Size - 1) (by omega) (by omega)
  rw [hdecomp] at happ
  rw [hj]
  exact happ

/-! ### Helper accessors for concrete claim statements -/

/-- The tokens of a full scanner run (drained until the first `None`). -/
def tokensOf (source : List Char) : Option (Except String (List Token)) :=
  (tokenizeFrom source).map (fun r => r.map Prod.fst)

/-- The `i`-th token of a full scanner run. -/
def tokenAt (source : List Char) (i : Nat) : Option Token :=
  match tokenizeFrom source with
  | some (.ok (ts, _)) => ts.get? i
  | _ => none

/-- Concatenation of the raw span texts of all emitted tokens, in emission
order. -/
def spansConcat (source : List Char) : Option (Except String (List Char)) :=
  (tokenizeFrom source).map (fun r => r.map
    (fun p => (p.1.map (fun t => t.span.source)).flatten))

/-- The number of attributes of the first root node (when it is an element). -/
def firstElemAttrCount (source : List Char) : Option Nat :=
  match parseInput source with
  | .ok (Node.mk (NodeKind.Element e) :: _) => some e.attributes.length
  | _ => none

/-- Whether `result` can be obtained from `orig` by deleting only characters
satisfying `allowed` (used to state the round-trip claim's original discard
set). -/
def canDeleteOnly (allowed : Char → Bool) : List Char → List Char → Bool
  | [], [] => true
  | [], _ :: _ => false
  | o :: os, [] => allowed o && canDeleteOnly allowed os []
  | o :: os, r :: rs =>
    (o == r && canDeleteOnly allowed os rs) || (allowed o && canDeleteOnly allowed os (r :: rs))

/-- The discard set named by the round-trip claim: quotes, `>` and `/`. -/
def claimDiscard (c : Char) : Bool :=
  c == '"' || c == '\'' || c == '>' || c == '/'

/-! ### The claims -/

/-- C1: the claim states that `Parser::new` followed by `parse` never raises
a failure on any input, including inputs with multi-byte characters.  The code
contradicts this (and its own `test_unicode` test, whose input is used here):
`consume_characters` slices `source[start_index..last_index + 1]` with byte
indices, and when the last consumed character is multi-byte the index
`last_index + 1` is not a character boundary, so the slice panics.  This
theorem evaluates the parser at the repository's own unicode test input and
shows the run aborts with the boundary panic. -/
theorem c1_unicode_input_panics :
    parseInput "<p>你好，世界！</p>".toList =
      .error "byte index is not a char boundary" := by
  rfl

/-- C7: for input `"<a><b></b></a>"` the parser returns exactly one root
element `a` with exactly one child element `b`, which has no attributes and
no children; the `TagEnd` tokens are discarded and nesting is reconstructed
from token order alone. -/
theorem c7_nested_elements :
    parseInput "<a><b></b></a>".toList =
      .ok [Node.mk (NodeKind.Element (Element.mk []
        [Node.mk (NodeKind.Element (Element.mk [] []
          { span := { range := { start := { line := 0, column := 4 },
                                 stop := { line := 0, column := 5 } },
                      source := ['b'] },
            kind := TokenKind.TagName ['b'] }))]
        { span := { range := { start := { line := 0, column := 1 },
                               stop := { line := 0, column := 2 } },
                    source := ['a'] },
          kind := TokenKind.TagName ['a'] }))] := by
  rfl

/-- C8: for input `"<a b=\"c\"></a>"` the single root element has exactly one
attribute, its name text is `"b"`, the raw `AttributeValue` token payload is
`"c"` (the quotes are already excluded by the scanner), and `value_text`
returns `"c"`. -/
theorem c8_attribute_parsing :
    firstElemAttrCount "<a b=\"c\"></a>".toList = some 1 ∧
    (parsedFirstAttr "<a b=\"c\"></a>".toList).map
      (fun a => (name_text a, a.value.kind, value_text a)) =
      some (['b'], TokenKind.AttributeValue ['c'], .ok ['c']) := by
  constructor
  · rfl
  · rfl

/-- C10: the claim states that `value_text` and `name_text` never panic,
including for input `"<a b='\"'>"`.  The code contradicts this: for that very
input the raw attribute value is the single character `"`, `value_text` takes
the `starts_with` branch and computes `&source[1..0]`, a slice whose start
exceeds its end, which panics.  This theorem evaluates the accessor on the
attribute produced by the parser for that input. -/
theorem c10_value_text_panics :
    (parsedFirstAttr "<a b='\"'>".toList).map
      (fun a => (value_text a, a.value.span.source)) =
      some (.error "slice index starts after it ends", ['"']) := by
  rfl

/-- C2: termination.  Every token-producing `next` call strictly decreases the
`tokenFuel` measure; every emitted token other than an `AttributeValue`
consumes at least one input character; an `AttributeValue` emission switches
the mode back to `AttributeName`; consequently the scanner yields only
finitely many tokens, and the mutually recursive `parse` /
`parse_attributes` loops finish: with any fuel above the measure the fueled
computations never exhaust their fuel and are independent of it. -/
theorem c2_tokenizer_and_parse_terminate :
    (∀ (st : Tokenizer) (t : Token) (st' : Tokenizer),
      Tokenizer.next st = .ok (some t, st') → tokenFuel st' < tokenFuel st) ∧
    (∀ (st : Tokenizer) (t : Token) (st' : Tokenizer),
      Tokenizer.next st = .ok (some t, st') →
      (∀ v, t.kind ≠ TokenKind.AttributeValue v) → st.pos < st'.pos) ∧
    (∀ (st : Tokenizer) (t : Token) (st' : Tokenizer),
      st.consume_mode = ConsumeMode.AttributeValue →
      Tokenizer.next st = .ok (some t, st') →
      (∃ v, t.kind = TokenKind.AttributeValue v) ∧
      st'.consume_mode = ConsumeMode.AttributeName) ∧
    (∀ (f : Nat) (st : Tokenizer), tokenFuel st < f →
      (parse f st).isSome ∧ parse f st = parse (tokenFuel st + 1) st) ∧
    (∀ (f : Nat) (st : Tokenizer), tokenFuel st < f →
      (parse_attributes f st).isSome ∧
      parse_attributes f st = parse_attributes (tokenFuel st + 1) st) := by
  refine ⟨?_, ?_, ?_, ?_, ?_⟩
  · intro st t st' h
    exact next_fuel_some h
  · intro st t st' h hnav
    obtain ⟨_, chunk, hpos, hch, _, hres⟩ := next_spec h
    obtain ⟨_, _, _, hne⟩ := hres
    have hch' := hne hnav
    have hl : 1 ≤ chunk.length := by
      cases hc : chunk with
      | nil => exact absurd hc hch'
      | cons x xs => simp [hc]
    omega
  · intro st t st' hm h
    obtain ⟨_, _, _, _, _, hres⟩ := next_spec h
    exact hres.2.2.1 hm
  · intro f st hf
    exact ⟨parse_isSome f st hf, parse_irrel f (tokenFuel st + 1) st hf (by omega)⟩
  · intro f st hf
    exact ⟨parse_attributes_isSome f st hf,
      parse_attributes_irrel f (tokenFuel st + 1) st hf (by omega)⟩

/-- Witness for C2: a concrete `next` call (the text token of input `"a"`)
strictly decreases the fuel measure. -/
theorem c2_witness :
    tokenFuel { source := ['a'], pos := 1, consume_mode := ConsumeMode.OutsideTag,
                line := 0, column := 1 } < tokenFuel (Tokenizer.new ['a']) :=
  c2_tokenizer_and_parse_terminate.1 (Tokenizer.new ['a'])
    { span := { range := { start := { line := 0, column := 0 },
                           stop := { line := 0, column := 1 } }, source := ['a'] },
      kind := TokenKind.Text ['a'] }
    { source := ['a'], pos := 1, consume_mode := ConsumeMode.OutsideTag,
      line := 0, column := 1 }
    (by rfl)

/-- C4: in `AttributeValue` mode `next` never returns nothing: it always
emits exactly one `AttributeValue` token and switches the mode back to
`AttributeName`; and for input `"<a b></a>"` the third emitted token is
`AttributeValue{""}` with a zero-length point span at line 0, column 4. -/
theorem c4_attribute_value_mode :
    (∀ (st st' : Tokenizer), Tokenizer.next st = .ok (none, st') →
      st.consume_mode ≠ ConsumeMode.AttributeValue) ∧
    (∀ (st : Tokenizer) (t : Token) (st' : Tokenizer),
      st.consume_mode = ConsumeMode.AttributeValue →
      Tokenizer.next st = .ok (some t, st') →
      (∃ v, t.kind = TokenKind.AttributeValue v) ∧
      st'.consume_mode = ConsumeMode.AttributeName) ∧
    tokenAt "<a b></a>".toList 2 =
      some { span := { range := { start := { line := 0, column := 4 },
                                  stop := { line := 0, column := 4 } }, source := [] },
             kind := TokenKind.AttributeValue [] } := by
  refine ⟨?_, ?_, ?_⟩
  · intro st st' h
    exact (next_none_mode h).2
  · intro st t st' hm h
    obtain ⟨_, _, _, _, _, hres⟩ := next_spec h
    exact hres.2.2.1 hm
  · rfl

/-- Witness for C4: a concrete `next` call in `AttributeValue` mode emits an
`AttributeValue` token and switches the mode back. -/
theorem c4_witness :
    (∃ v, ({ span := { range := { start := { line := 0, column := 0 },
                                  stop := { line := 0, column := 0 } }, source := [] },
             kind := TokenKind.AttributeValue [] } : Token).kind =
        TokenKind.AttributeValue v) ∧
    ({ source := [], pos := 0, consume_mode := ConsumeMode.AttributeName,
       line := 0, column := 0 } : Tokenizer).consume_mode =
      ConsumeMode.AttributeName :=
  c4_attribute_value_mode.2.1
    { source := [], pos := 0, consume_mode := ConsumeMode.AttributeValue,
      line := 0, column := 0 }
    { span := { range := { start := { line := 0, column := 0 },
                           stop := { line := 0, column := 0 } }, source := [] },
      kind := TokenKind.AttributeValue [] }
    { source := [], pos := 0, consume_mode := ConsumeMode.AttributeName,
      line := 0, column := 0 }
    rfl
    (by rfl)

/-- C9: position tracking is zero-indexed and advances per consumed
character: a newline increments the line and resets the column to 0, any
other character increments the column; consequently every emitted token's
span starts at some buffer offset `p` holding its text, and its start line
equals the number of newline characters before that offset. -/
theorem c9_position_tracking :
    (∀ (st : Tokenizer) (c : Char),
      (c = '\n' → (advanceChar st c).line = st.line + 1 ∧
        (advanceChar st c).column = 0) ∧
      (c ≠ '\n' → (advanceChar st c).line = st.line ∧
        (advanceChar st c).column = st.column + 1)) ∧
    (∀ (source : List Char) (ts : List Token) (st' : Tokenizer),
      tokenizeFrom source = some (.ok (ts, st')) →
      ∀ t ∈ ts, ∃ p, p ≤ source.length ∧
        t.span.range.start.line = (source.take p).count '\n' ∧
        t.span.source = (source.drop p).take t.span.source.length) := by
  constructor
  · intro st c
    constructor
    · intro hc
      subst hc
      unfold advanceChar
      rw [if_pos rfl]
      exact ⟨rfl, rfl⟩
    · intro hc
      unfold advanceChar
      rw [if_neg hc]
      exact ⟨rfl, rfl⟩
  · intro source ts st' h
    exact tokenize_lines (tokenFuel (Tokenizer.new source) + 1)
      h (by simp [Tokenizer.new]) (by simp [Tokenizer.new])

/-- Witness for C9: the single text token of input `"a\nb"` (whose span
crosses a newline) starts at an offset with zero preceding newlines, hence
start line 0. -/
theorem c9_witness :
    ∃ p, p ≤ "a\nb".toList.length ∧
      ({ span := { range := { start := { line := 0, column := 0 },
                              stop := { line := 1, column := 1 } },
                   source := ['a', '\n', 'b'] },
         kind := TokenKind.Text ['a', '\n', 'b'] } : Token).span.range.start.line =
        ("a\nb".toList.take p).count '\n' ∧
      ({ span := { range := { start := { line := 0, column := 0 },
                              stop := { line := 1, column := 1 } },
                   source := ['a', '\n', 'b'] },
         kind := TokenKind.Text ['a', '\n', 'b'] } : Token).span.source =
        ("a\nb".toList.drop p).take 3 :=
  c9_position_tracking.2 "a\nb".toList
    [{ span := { range := { start := { line := 0, column := 0 },
                            stop := { line := 1, column := 1 } },
                 source := ['a', '\n', 'b'] },
       kind := TokenKind.Text ['a', '\n', 'b'] }]
    { source := "a\nb".toList, pos := 3, consume_mode := ConsumeMode.OutsideTag,
      line := 1, column := 1 }
    (by rfl)
    _ (by simp)

/-- C3 counterexample: for input `"<a///><b>"` the first emitted token is a
`TagName` (the input starts with `<` not followed by `/`), yet `parse`
returns a forest with two roots, not one: the attribute loop and the child
collection each end on a `None` (each consuming one stray `/`), the
recursive child call returns with input remaining, and the top-level loop
then resumes, consumes the leftover `/>` as an `OpeningTagEnd` and parses
`<b>` as a second root. -/
theorem c3_counterexample :
    (firstToken "<a///><b>".toList).map Token.kind =
      some (TokenKind.TagName ['a']) ∧
    (parseInput "<a///><b>".toList).map List.length = .ok 2 := by
  constructor
  · rfl
  · rfl

/-- C3 amended: when the first emitted token is a `TagName`, the forest is
nonempty and its first root is an element built from exactly that token (the
exactly-one-root claim fails, e.g. on `"<a///><b>"`). -/
theorem c3_first_root_element :
    ∀ (source : List Char) (l : List Node) (tok : Token) (nm : List Char),
      firstToken source = some tok → tok.kind = TokenKind.TagName nm →
      parseInput source = .ok l →
      ∃ attrs children rest,
        l = Node.mk (NodeKind.Element (Element.mk attrs children tok)) :: rest := by
  intro source l tok nm hft hkd hp
  unfold parseInput at hp
  simp only [] at hp
  unfold firstToken at hft
  cases hpar : parse (tokenFuel (Parser.new source) + 1) (Parser.new source) with
  | none =>
    rw [hpar] at hp
    exact Except.noConfusion hp
  | some r2 =>
    cases r2 with
    | error e =>
      rw [hpar] at hp
      exact Except.noConfusion hp
    | ok pr =>
      obtain ⟨nodes, stF⟩ := pr
      rw [hpar] at hp
      injection hp with hnl
      subst hnl
      cases hn : Tokenizer.next (Parser.new source) with
      | error e =>
        rw [hn] at hft
        exact Option.noConfusion hft
      | ok p =>
        obtain ⟨r, st₁⟩ := p
        cases r with
        | none =>
          rw [hn] at hft
          exact Option.noConfusion hft
        | some t =>
          rw [hn] at hft
          injection hft with hft'
          subst hft'
          unfold parse at hpar
          rw [hn] at hpar
          simp only [hkd] at hpar
          split at hpar
          · exact Option.noConfusion hpar
          · injection hpar with h1
            exact Except.noConfusion h1
          · rename_i attrs st₂ hattrs
            split at hpar
            · exact Option.noConfusion hpar
            · injection hpar with h1
              exact Except.noConfusion h1
            · rename_i children st₃ hchildren
              split at hpar
              · exact Option.noConfusion hpar
              · injection hpar with h1
                exact Except.noConfusion h1
              · rename_i rest st₄ hrest
                injection hpar with h1
                injection h1 with h2
                injection h2 with ha hb
                exact ⟨attrs, children, rest, ha.symm⟩

/-- Witness for C3 (amended): for input `"<a>"` the forest's first (and
only) root is the element built from the first `TagName` token. -/
theorem c3_witness :
    ∃ attrs children rest,
      [Node.mk (NodeKind.Element (Element.mk [] []
        { span := { range := { start := { line := 0, column := 1 },
                               stop := { line := 0, column := 2 } }, source := ['a'] },
          kind := TokenKind.TagName ['a'] }))] =
      Node.mk (NodeKind.Element (Element.mk attrs children
        { span := { range := { start := { line := 0, column := 1 },
                               stop := { line := 0, column := 2 } }, source := ['a'] },
          kind := TokenKind.TagName ['a'] })) :: rest :=
  c3_first_root_element "<a>".toList
    [Node.mk (NodeKind.Element (Element.mk [] []
      { span := { range := { start := { line := 0, column := 1 },
                             stop := { line := 0, column := 2 } }, source := ['a'] },
        kind := TokenKind.TagName ['a'] }))]
    { span := { range := { start := { line := 0, column := 1 },
                           stop := { line := 0, column := 2 } }, source := ['a'] },
      kind := TokenKind.TagName ['a'] }
    ['a'] (by rfl) rfl (by rfl)

/-- C5 counterexample: a raw attribute value that begins with a quote but
does not end with the same quote is not returned unchanged.  For input
`"<a b='\"x'>"` the parser produces an attribute whose raw value is `"x`
(leading double quote, no trailing one); `value_text` strips the first and
last characters anyway, returning `""` instead of the raw text. -/
theorem c5_counterexample :
    (parsedFirstAttr "<a b='\"x'>".toList).map
      (fun a => (value_text a, a.value.span.source)) =
      some (.ok [], ['"', 'x']) ∧
    (Except.ok ['"', 'x'] : Except String (List Char)) ≠ .ok [] := by
  constructor
  · rfl
  · intro hcontra
    injection hcontra with h
    exact absurd h (by decide)

/-- C5 amended: `value_text` decides by the first character only.  When the
raw value does not start with `"` or `'` it is returned unchanged; when it
does start with a quote, the byte slice `source[1..len-1]` strips the first
and the last character whatever the last character is — provided the value
has at least two characters and its last character is one byte — and panics
otherwise (single-quote-character value, or a multi-byte final character). -/
theorem c5_value_text_amended :
    ∀ (a : Attribute),
      (a.value.span.source.head? ≠ some '"' ∧ a.value.span.source.head? ≠ some '\'' →
        value_text a = .ok a.value.span.source) ∧
      ((a.value.span.source.head? = some '"' ∨ a.value.span.source.head? = some '\'') →
        (2 ≤ a.value.span.source.length → lastCharIsOneByte a.value.span.source = true →
          value_text a = .ok ((a.value.span.source.drop 1).dropLast)) ∧
        ((a.value.span.source.length = 1 ∨ lastCharIsOneByte a.value.span.source = false) →
          ∃ e, value_text a = .error e)) := by
  intro a
  constructor
  · intro ⟨h1, h2⟩
    unfold value_text
    rw [if_neg]
    simp only [Bool.or_eq_true, beq_iff_eq]
    push_neg
    exact ⟨h1, h2⟩
  · intro hq
    obtain ⟨q, cs, hsrc, hq1, hcond⟩ :
        ∃ q cs, a.value.span.source = q :: cs ∧ q.utf8Size = 1 ∧
          (a.value.span.source.head? == some '"' ||
           a.value.span.source.head? == some '\'') = true := by
      rcases hq with h | h
      · cases hsrc : a.value.span.source with
        | nil =>
          rw [hsrc] at h
          exact Option.noConfusion h
        | cons q cs =>
          rw [hsrc] at h
          injection h with h'
          subst h'
          exact ⟨'"', cs, rfl, by decide, by simp⟩
      · cases hsrc : a.value.span.source with
        | nil =>
          rw [hsrc] at h
          exact Option.noConfusion h
        | cons q cs =>
          rw [hsrc] at h
          injection h with h'
          subst h'
          exact ⟨'\'', cs, rfl, by decide, by simp⟩
    constructor
    · -- at least two characters, one-byte last character: strip both ends
      intro hlen hlast
      have hcs_ne : cs ≠ [] := by
        intro hc
        rw [hsrc, hc] at hlen
        simp at hlen
      have hlast' : lastCharIsOneByte cs = true := by
        rw [hsrc] at hlast
        cases cs with
        | nil => exact absurd rfl hcs_ne
        | cons d ds => exact hlast
      have hj : utf8Len a.value.span.source - 1 = utf8Len cs := by
        rw [hsrc, utf8Len_cons, hq1]
        omega
      have hjpos : 1 ≤ utf8Len a.value.span.source - 1 := by
        rw [hj]
        exact utf8Len_pos hcs_ne
      unfold value_text
      rw [if_pos hcond]
      unfold byteSlice
      rw [if_pos hjpos, hsrc, byteDrop_one hq1]
      have harg : utf8Len a.value.span.source - 1 - 1 = utf8Len cs - 1 := by
        omega
      rw [hsrc] at harg
      rw [harg]
      simp only []
      rw [byteTake_dropLast hcs_ne hlast']
      rfl
    · -- a single quote character, or a multi-byte last character: panic
      intro hbad
      rcases hbad with hone | hmb
      · have hcs : cs = [] := by
          rw [hsrc] at hone
          simp at hone
          exact hone
        subst hcs
        have hj0 : utf8Len a.value.span.source - 1 = 0 := by
          rw [hsrc, utf8Len_cons, hq1]
          rfl
        refine ⟨"slice index starts after it ends", ?_⟩
        unfold value_text
        rw [if_pos hcond]
        unfold byteSlice
        rw [hj0]
        rfl
      · have hcs_ne : cs ≠ [] := by
          intro hc
          rw [hsrc, hc] at hmb
          simp only [lastCharIsOneByte] at hmb
          rw [hq1] at hmb
          simp at hmb
        have hlast' : lastCharIsOneByte cs = false := by
          rw [hsrc] at hmb
          cases cs with
          | nil => exact absurd rfl hcs_ne
          | cons d ds => exact hmb
        have hj : utf8Len a.value.span.source - 1 = utf8Len cs := by
          rw [hsrc, utf8Len_cons, hq1]
          omega
        have hjpos : 1 ≤ utf8Len a.value.span.source - 1 := by
          rw [hj]
          exact utf8Len_pos hcs_ne
        refine ⟨"byte index is not a char boundary", ?_⟩
        unfold value_text
        rw [if_pos hcond]
        unfold byteSlice
        rw [if_pos hjpos, hsrc, byteDrop_one hq1]
        have harg : utf8Len a.value.span.source - 1 - 1 = utf8Len cs - 1 := by
          omega
        rw [hsrc] at harg
        rw [harg]
        simp only []
        rw [byteTake_last_multibyte hcs_ne hlast']

/-- Witness for C5 (amended): on the concrete attribute with raw value `"x`
the accessor strips both ends, returning `""`. -/
theorem c5_witness :
    value_text
      { name := { span := { range := { start := { line := 0, column := 3 },
                                       stop := { line := 0, column := 4 } },
                            source := ['b'] },
                  kind := TokenKind.AttributeName ['b'] },
        value := { span := { range := { start := { line := 0, column := 6 },
                                        stop := { line := 0, column := 8 } },
                             source := ['"', 'x'] },
                   kind := TokenKind.AttributeValue ['"', 'x'] } } =
      .ok ((['"', 'x'].drop 1).dropLast) :=
  ((c5_value_text_amended
    { name := { span := { range := { start := { line := 0, column := 3 },
                                     stop := { line := 0, column := 4 } },
                          source := ['b'] },
                kind := TokenKind.AttributeName ['b'] },
      value := { span := { range := { start := { line := 0, column := 6 },
                                      stop := { line := 0, column := 8 } },
                           source := ['"', 'x'] },
                 kind := TokenKind.AttributeValue ['"', 'x'] } }).2
    (Or.inl rfl)).1 (by decide) (by decide)

/-- C6 counterexample: for input `"<a>"` the concatenated span texts are
`"a>"`, the run emits no zero-length point span, and `"a>"` cannot be
obtained from `"<a>"` by deleting only quotes, `>` and `/` — the discarded
`<` is not in the claim's discard set, so the claimed equality fails. -/
theorem c6_counterexample :
    spansConcat "<a>".toList = some (.ok ['a', '>']) ∧
    (tokensOf "<a>".toList).map
      (fun r => r.map (fun ts => ts.all (fun t => !t.span.source.isEmpty))) =
      some (.ok true) ∧
    canDeleteOnly claimDiscard "<a>".toList ['a', '>'] = false := by
  refine ⟨rfl, rfl, by decide⟩

/-- C6 amended: a full scanner run consumes the prefix of the buffer up to
the final cursor position (the rest is the unconsumed remainder at the point
the scanner first yields nothing); within that prefix the emitted span texts
appear in emission order, separated only by discarded characters, each of
which is `<`, `/`, `>`, `=`, a quote, or whitespace — so the concatenated
span texts are that prefix minus only such discarded characters, with no
other character lost, duplicated or reordered. -/
theorem c6_token_spans_interleave :
    ∀ (source : List Char) (ts : List Token) (st' : Tokenizer),
      tokenizeFrom source = some (.ok (ts, st')) →
      source = source.take st'.pos ++ source.drop st'.pos ∧
      Interleaves (ts.map fun t => t.span.source) (source.take st'.pos) ∧
      (ts.map fun t => t.span.source).flatten.Sublist (source.take st'.pos) := by
  intro source ts st' h
  obtain ⟨hsrc, hple, hint⟩ :=
    tokenize_interleaves (tokenFuel (Tokenizer.new source) + 1) h
  have hint' : Interleaves (ts.map fun t => t.span.source) (source.take st'.pos) := by
    simpa [Tokenizer.new] using hint
  exact ⟨(List.take_append_drop _ _).symm, hint', hint'.flatten_sublist⟩

/-- The two tokens of the run on `"<a>"`, used by the C6 witness. -/
def c6TokenA : Token :=
  { span := { range := { start := { line := 0, column := 1 },
                         stop := { line := 0, column := 2 } }, source := ['a'] },
    kind := TokenKind.TagName ['a'] }

/-- The `OpeningTagEnd` token of the run on `"<a>"`, used by the C6
witness. -/
def c6TokenGt : Token :=
  { span := { range := { start := { line := 0, column := 2 },
                         stop := { line := 0, column := 2 } }, source := ['>'] },
    kind := TokenKind.OpeningTagEnd }

/-- Witness for C6 (amended): the concrete run on `"<a>"`, whose two span
texts `"a"` and `">"` interleave with the discarded `<` inside the fully
consumed buffer. -/
theorem c6_witness :
    "<a>".toList = "<a>".toList.take 3 ++ "<a>".toList.drop 3 ∧
    Interleaves ([c6TokenA, c6TokenGt].map fun t => t.span.source)
      ("<a>".toList.take 3) ∧
    ([c6TokenA, c6TokenGt].map fun t => t.span.source).flatten.Sublist
      ("<a>".toList.take 3) :=
  c6_token_spans_interleave "<a>".toList [c6TokenA, c6TokenGt]
    { source := "<a>".toList, pos := 3, consume_mode := ConsumeMode.OutsideTag,
      line := 0, column := 3 }
    (by rfl)

end HtmlParser
